import Mathlib

/-!
Verification of the Fetchy package manager's install / update / uninstall
engine against its natural-language specification.

The Rust source is shallowly embedded: pure functions become Lean functions,
stateful commands become explicit state passing, fallible code returns
`Except`.  Rust's `BTreeMap` / `HashMap` values are modelled as association
lists (`List (String × α)`): `lookupA` returns the first binding, `insertA`
replaces in place or appends.  Iteration order differs from `BTreeMap`
(insertion order instead of key order), which none of the verified
properties depend on.  Network and file I/O are modelled by oracles passed
as explicit function arguments.
-/

namespace Fetchy

/-- First binding for `k` in an association list (model of map lookup). -/
def lookupA {α : Type} (l : List (String × α)) (k : String) : Option α :=
  match l with
  | [] => none
  | (k', v) :: rest => if k' = k then some v else lookupA rest k

/-- Replace the binding for `k` in place, or append a new one (model of map insert). -/
def insertA {α : Type} (l : List (String × α)) (k : String) (v : α) :
    List (String × α) :=
  match l with
  | [] => [(k, v)]
  | (k', v') :: rest => if k' = k then (k, v) :: rest else (k', v') :: insertA rest k v

/-- Remove the first binding for `k` (model of map remove). -/
def eraseA {α : Type} (l : List (String × α)) (k : String) : List (String × α) :=
  match l with
  | [] => []
  | (k', v') :: rest => if k' = k then rest else (k', v') :: eraseA rest k

theorem lookupA_mem {α : Type} {l : List (String × α)} {k : String} {v : α}
    (h : lookupA l k = some v) : (k, v) ∈ l := by
  induction l with
  | nil => simp [lookupA] at h
  | cons hd tl ih =>
    obtain ⟨k', v'⟩ := hd
    unfold lookupA at h
    by_cases hk : k' = k
    · simp [hk] at h
      subst hk
      subst h
      exact List.mem_cons_self _ _
    · simp [hk] at h
      exact List.mem_cons_of_mem _ (ih h)

theorem lookupA_append_left {α : Type} {l1 l2 : List (String × α)} {k : String} {v : α}
    (h : lookupA l1 k = some v) : lookupA (l1 ++ l2) k = some v := by
  induction l1 with
  | nil => simp [lookupA] at h
  | cons hd tl ih =>
    unfold lookupA at h ⊢
    by_cases hk : hd.1 = k
    · simp_all
    · simp [hk] at h ⊢
      exact ih h

theorem lookupA_append_right {α : Type} {l1 l2 : List (String × α)} {k : String}
    (h : lookupA l1 k = none) : lookupA (l1 ++ l2) k = lookupA l2 k := by
  induction l1 with
  | nil => simp
  | cons hd tl ih =>
    obtain ⟨k', v'⟩ := hd
    unfold lookupA at h
    by_cases hk : k' = k
    · simp [hk] at h
    · simp [hk] at h
      rw [List.cons_append]
      show (if k' = k then some v' else lookupA (tl ++ l2) k) = lookupA l2 k
      simp [hk]
      exact ih h

theorem lookupA_eq_none {α : Type} {l : List (String × α)} {k : String} :
    lookupA l k = none ↔ ∀ v, (k, v) ∉ l := by
  induction l with
  | nil => simp [lookupA]
  | cons hd tl ih =>
    obtain ⟨k', v'⟩ := hd
    unfold lookupA
    by_cases hk : k' = k
    · subst hk
      constructor
      · intro h
        simp at h
      · intro h
        exact absurd (List.mem_cons_self _ _) (h v')
    · simp only [hk, if_false, ih]
      constructor
      · intro h v hv
        rcases List.mem_cons.mp hv with h1 | h1
        · exact hk (congrArg Prod.fst h1.symm)
        · exact h v h1
      · intro h v hv
        exact h v (List.mem_cons_of_mem _ hv)

/-- Keys of an association list. -/
def keysA {α : Type} (l : List (String × α)) : List String := l.map Prod.fst

theorem mem_keysA_of_lookupA {α : Type} {l : List (String × α)} {k : String} {v : α}
    (h : lookupA l k = some v) : k ∈ keysA l := by
  have := lookupA_mem h
  exact List.mem_map.mpr ⟨(k, v), this, rfl⟩

theorem lookupA_isSome_of_mem {α : Type} {l : List (String × α)} {k : String} {v : α}
    (h : (k, v) ∈ l) : (lookupA l k).isSome := by
  induction l with
  | nil => simp at h
  | cons hd tl ih =>
    unfold lookupA
    by_cases hk : hd.1 = k
    · simp [hk]
    · simp only [hk, if_false]
      rcases List.mem_cons.mp h with h1 | h1
      · exfalso
        apply hk
        rw [← h1]
      · exact ih h1

/-! ## Data model (src/repos/ast.rs, src/sources, src/db/data.rs) -/

/-- A compiled regular expression, modelled by its matching function.
The original source text is irrelevant to the verified properties. -/
def Pattern : Type := String → Bool

/-- Archive formats supported by the extractor. -/
inductive ArchiveFormat : Type
  | tarGz
  | tarXz
  | zip

/-- One binary to pull out of an archive. -/
structure BinaryInArchive : Type where
  path_matcher : Pattern
  copy_as : String

/-- What the downloaded asset is. -/
inductive AssetType : Type
  | binary (copy_as : String)
  | archive (format : ArchiveFormat) (files : List BinaryInArchive)

inductive System : Type
  | linux
  | windows
deriving DecidableEq

inductive CpuArch : Type
  | x86_64
  | aarch64
deriving DecidableEq

/-- Platform-keyed table (src/repos/arch.rs). -/
def PlatformDependent (T : Type) : Type := List ((System × CpuArch) × T)

/-- Direct-URL download source (src/sources/direct.rs). -/
structure DirectSource : Type where
  urls : PlatformDependent (String × AssetType)
  hardcoded_version : String

/-- Where the GitHub driver takes the version string from. -/
inductive GitHubVersionExtraction : Type
  | tagName
  | releaseTitle

/-- GitHub release download source (src/sources/github.rs). -/
structure GitHubSource : Type where
  author : String
  repo_name : String
  asset : PlatformDependent (Pattern × AssetType)
  version : GitHubVersionExtraction

inductive DownloadSource : Type
  | direct (s : DirectSource)
  | github (s : GitHubSource)

structure PackageManifest : Type where
  name : String
  source : DownloadSource
  depends_on : List String

structure Repository : Type where
  name : String
  description : String
  packages : List (String × PackageManifest)

/-- Output of the asset-source drivers. -/
structure AssetInfos : Type where
  url : String
  headers : List (String × String)
  version : String
  typ : AssetType

/-- Database record of an installed package.  `at` is an abstract instant. -/
structure InstalledPackage : Type where
  manifest : PackageManifest
  repo_name : String
  version : String
  at_ : Nat
  binaries : List String
  installed_as_dep : Bool

/-- A registered repository.  The on-disk source location is only used for
re-fetching, which is outside the commands modelled here. -/
structure SourcedRepository : Type where
  content : Repository

/-- The persisted database state (src/db/data.rs). -/
structure AppData : Type where
  repositories : List (String × SourcedRepository)
  installed : List (String × InstalledPackage)

/-- A manifest chosen from one repository, tagged with whether it was pulled
in as a dependency (src/resolver.rs). -/
structure ResolvedPkg : Type where
  manifest : PackageManifest
  repository : Repository
  is_dep : Bool

/-- Every error kind the modelled commands can surface. -/
inductive Err : Type
  | packageNotFound (name : String)
  | ambiguousPackage (name : String)
  | repositoryConflictDup (name : String)
  | repositoryConflictDep (dep pkg : String)
  | missingDependency (dep pkg repo : String)
  | outOfFuel
  | repositoryMigration (pkg : String)
  | fetchFailed (pkg : String)
  | userAbort
  | downloadOrExtractFailed (pkg : String)
  | binaryCollision (pkg bin clashing : String)
  | orphanedInstall (pkg repo : String)
  | notInstalled (name : String)
  | wouldBreakDependents (pkg : String)
  | missingBinary (bin pkg : String)
  | removeFileFailed (bin : String)
  | assertFailed

/-! ## Resolver (src/resolver.rs) -/

/-- `resolve_pkg_by_name`: look a name up across all repositories; exactly one
repository must contain it. -/
def resolvePkgByName (name : String) (repos : List (String × Repository)) :
    Except Err ResolvedPkg :=
  let candidates := repos.filterMap
    (fun p => (lookupA p.2.packages name).map (fun pkg => (pkg, p.2)))
  match candidates with
  | [] => .error (.packageNotFound name)
  | [(manifest, repository)] =>
    .ok { manifest := manifest, repository := repository, is_dep := false }
  | _ :: _ :: _ => .error (.ambiguousPackage name)

/-- Fallible map over a list, stopping at the first error (the semantics of
Rust's `collect::<Result<Vec<_>, _>>()`). -/
def mapME {α β : Type} (f : α → Except Err β) : List α → Except Err (List β)
  | [] => .ok []
  | a :: l =>
    match f a with
    | .error e => .error e
    | .ok b =>
      match mapME f l with
      | .error e => .error e
      | .ok bs => .ok (b :: bs)

/-- `resolve_pkgs_by_name`. -/
def resolvePkgsByName (names : List String) (repos : List (String × Repository)) :
    Except Err (List ResolvedPkg) :=
  mapME (fun n => resolvePkgByName n repos) names

/-- The requested-package conflict check of `resolve_pkgs_with_deps`
(lines 108-120): a dependency name that was also explicitly requested must
come from the same repository as its parent. -/
def depConflict (pkgs0 : List ResolvedPkg) (repository : Repository)
    (depName : String) : Bool :=
  match pkgs0.find? (fun p => p.manifest.name == depName) with
  | some existing => existing.repository.name != repository.name
  | none => false

/-- Inner loop of `resolve_pkgs_with_deps`: enqueue the dependencies of a
newly handled package, with the two repository-conflict checks. -/
def enqueueDeps (pkgs0 : List ResolvedPkg) (repository : Repository)
    (pkgName : String) (queue : List ResolvedPkg) :
    List String → Except Err (List ResolvedPkg)
  | [] => .ok queue
  | depName :: rest =>
    if depConflict pkgs0 repository depName then
      .error (.repositoryConflictDep depName pkgName)
    else match lookupA repository.packages depName with
      | none => .error (.missingDependency depName pkgName repository.name)
      | some depManifest =>
        enqueueDeps pkgs0 repository pkgName
          (queue ++ [{ manifest := depManifest, repository := repository, is_dep := true }])
          rest

/-- The queue-processing loop of `resolve_pkgs_with_deps`.
`handled` is the name-keyed map of already visited packages. -/
def resolveStep (pkgs0 : List ResolvedPkg) :
    Nat → List ResolvedPkg → List (String × ResolvedPkg) →
    Except Err (List (String × ResolvedPkg))
  | 0, _, _ => .error .outOfFuel
  | _ + 1, [], handled => .ok handled
  | fuel + 1, resolved :: queue, handled =>
    match lookupA handled resolved.manifest.name with
    | some prev =>
      if prev.repository.name ≠ resolved.repository.name then
        .error (.repositoryConflictDup resolved.manifest.name)
      else resolveStep pkgs0 fuel queue handled
    | none =>
      match enqueueDeps pkgs0 resolved.repository resolved.manifest.name queue
          resolved.manifest.depends_on with
      | .error e => .error e
      | .ok queue' =>
        resolveStep pkgs0 fuel queue'
          (handled ++ [(resolved.manifest.name, resolved)])

/-- An over-approximation of the number of loop iterations
`resolve_pkgs_with_deps` can perform: every push comes either from the
initial queue or from the dependency list of a package of some involved
repository, and each name is expanded at most once. -/
def resolveFuelBound (pkgs : List ResolvedPkg) : Nat :=
  pkgs.length + 1 +
    (pkgs.map (fun p =>
      p.manifest.depends_on.length +
        (p.repository.packages.map (fun q => q.2.depends_on.length)).sum)).sum *
      (pkgs.length + (pkgs.map (fun p => p.repository.packages.length)).sum)

/-- `resolve_pkgs_with_deps`: breadth-first dependency expansion, de-duplicated
by package name. -/
def resolvePkgsWithDeps (pkgs : List ResolvedPkg) : Except Err (List ResolvedPkg) :=
  (resolveStep pkgs (resolveFuelBound pkgs) pkgs []).map (fun h => h.map Prod.snd)

/-- `resolve_pkgs_by_name_with_deps`. -/
def resolvePkgsByNameWithDeps (names : List String)
    (repos : List (String × Repository)) : Except Err (List ResolvedPkg) :=
  match resolvePkgsByName names repos with
  | .error e => .error e
  | .ok pkgs => resolvePkgsWithDeps pkgs

/-! ## Planner (src/install/phases.rs) -/

structure UntouchedPackages : Type where
  already_installed : List ResolvedPkg
  already_installed_deps : List ResolvedPkg
  no_update_needed : List ResolvedPkg
  update_available : List (ResolvedPkg × AssetInfos × InstalledPackage)

structure PackagesToInstall : Type where
  missing_pkgs : List (ResolvedPkg × AssetInfos)
  missing_deps : List (ResolvedPkg × AssetInfos)
  needs_updating : List (ResolvedPkg × AssetInfos × InstalledPackage)
  reinstall : List (ResolvedPkg × AssetInfos × InstalledPackage)

structure InstallPhases : Type where
  untouched : UntouchedPackages
  to_install : PackagesToInstall

def emptyToInstall : PackagesToInstall :=
  { missing_pkgs := [], missing_deps := [], needs_updating := [], reinstall := [] }

inductive InstalledPackagesHandling : Type
  | ignore
  | checkUpdates
  | update
  | reinstall

/-- The asset-info network fetch, as an oracle: `none` models a failed
`fetch_infos` call for that manifest. -/
def FetchOracle : Type := PackageManifest → Option AssetInfos

/-- `fetch_resolved_pkg_infos`: fetch asset infos for each package; the first
failure aborts the batch. -/
def fetchResolvedPkgInfos (oracle : FetchOracle) (pkgs : List ResolvedPkg) :
    Except Err (List (ResolvedPkg × AssetInfos)) :=
  mapME (fun p =>
    match oracle p.manifest with
    | some infos => .ok (p, infos)
    | none => .error (.fetchFailed p.manifest.name)) pkgs

/-- The pre-check of `compute_install_phases` (lines 47-58): an installed
package must come from the repository it was installed from. -/
def migrationCheck (pkgs : List ResolvedPkg) (db : AppData) : Except Err Unit :=
  match pkgs.find? (fun pkg =>
      match lookupA db.installed pkg.manifest.name with
      | some installed => installed.repo_name != pkg.repository.name
      | none => false) with
  | some pkg => .error (.repositoryMigration pkg.manifest.name)
  | none => .ok ()

/-- The classification of one fetched package (the loop body of
`compute_install_phases`, lines 123-179), pushing it into the right bucket.
In the `Ignore` arm the Rust code only asserts that the package is not a
dependency (the partition above guarantees the entry is not installed, so
that arm is unreachable) and pushes nothing. -/
def pushClassified (handling : InstalledPackagesHandling) (db : AppData)
    (phases : InstallPhases) (pa : ResolvedPkg × AssetInfos) : InstallPhases :=
  match lookupA db.installed pa.1.manifest.name with
  | none =>
    if pa.1.is_dep then
      { phases with to_install.missing_deps := phases.to_install.missing_deps ++ [pa] }
    else
      { phases with to_install.missing_pkgs := phases.to_install.missing_pkgs ++ [pa] }
  | some already_installed =>
    match handling with
    | .ignore => phases
    | .checkUpdates =>
      if pa.2.version = already_installed.version then
        { phases with untouched.no_update_needed :=
            phases.untouched.no_update_needed ++ [pa.1] }
      else
        { phases with untouched.update_available :=
            phases.untouched.update_available ++ [(pa.1, pa.2, already_installed)] }
    | .update =>
      if pa.2.version = already_installed.version then
        { phases with untouched.no_update_needed :=
            phases.untouched.no_update_needed ++ [pa.1] }
      else
        { phases with to_install.needs_updating :=
            phases.to_install.needs_updating ++ [(pa.1, pa.2, already_installed)] }
    | .reinstall =>
      if pa.1.is_dep ∧ pa.2.version = already_installed.version then
        { phases with untouched.already_installed_deps :=
            phases.untouched.already_installed_deps ++ [pa.1] }
      else
        { phases with to_install.reinstall :=
            phases.to_install.reinstall ++ [(pa.1, pa.2, already_installed)] }

/-- `compute_install_phases`.  The returned `Nat` counts how many packages
had their asset infos fetched from the network (zero on the fast paths,
which perform no network call). -/
def computeInstallPhases (oracle : FetchOracle) (pkgs : List ResolvedPkg)
    (handling : InstalledPackagesHandling) (db : AppData) :
    Except Err (InstallPhases × Nat) :=
  match migrationCheck pkgs db with
  | .error e => .error e
  | .ok _ =>
    if (handling matches .ignore) &&
        (pkgs.filter (fun p : ResolvedPkg => !p.is_dep)).all
          (fun pkg => (lookupA db.installed pkg.manifest.name).isSome) then
      let parts := pkgs.partition (fun pkg : ResolvedPkg => pkg.is_dep)
      .ok ({ untouched :=
               { already_installed := parts.2,
                 already_installed_deps := parts.1,
                 no_update_needed := [],
                 update_available := [] },
             to_install := emptyToInstall }, 0)
    else
      let split := match handling with
        | .ignore =>
          pkgs.partition
            (fun pkg : ResolvedPkg => (lookupA db.installed pkg.manifest.name).isSome)
        | _ => ([], pkgs)
      let parts := split.1.partition (fun pkg : ResolvedPkg => pkg.is_dep)
      if split.2.isEmpty then
        .ok ({ untouched :=
                 { already_installed := parts.2,
                   already_installed_deps := parts.1,
                   no_update_needed := [],
                   update_available := [] },
               to_install := emptyToInstall }, 0)
      else
        match fetchResolvedPkgInfos oracle split.2 with
        | .error e => .error e
        | .ok fetched =>
          .ok (fetched.foldl (pushClassified handling db)
                 { untouched :=
                     { already_installed := parts.2,
                       already_installed_deps := parts.1,
                       no_update_needed := [],
                       update_available := [] },
                   to_install := emptyToInstall },
               split.2.length)

/-! ## Installer (src/install/installer.rs)

The download and extraction pipeline is driven by an oracle: for each
to-install package it either fails (`none`, modelling a download or
extraction error) or yields the extracted binaries.  An extracted binary's
staged file is represented by its byte `content`; the on-disk binary
directory is an association list from filename to file entry. -/

structure FileEntry : Type where
  content : String
  mode : Nat
deriving DecidableEq

structure ExtractedBinary : Type where
  name : String
  content : String
deriving DecidableEq

structure ExtractionResult : Type where
  binaries : List ExtractedBinary
deriving DecidableEq

structure ExtractedPackage : Type where
  manifest : PackageManifest
  repo_name : String
  version : String
  extracted : ExtractionResult
  is_dep : Bool

def ExtractOracle : Type := PackageManifest → AssetInfos → Option ExtractionResult

/-- Mutable state a command touches: the in-memory database (whose writes
also rewrite the database file), the binary directory, and effect counters
observing the database-file writes, the confirmation prompt and the number
of download-and-extract jobs started. -/
structure St : Type where
  db : AppData
  binDir : List (String × FileEntry)
  dbWrites : Nat
  prompted : Bool
  downloads : Nat

/-- `download_assets_and` + `extract_downloaded_asset`: run one
download-and-extract job per to-install package; the first failure aborts.
`pkgInfos` is the name-keyed map the installer builds before downloading
(`ExtractionState.pkg_infos`). -/
def downloadAndExtract (oracle : ExtractOracle)
    (pkgInfos : List (String × (String × Bool)))
    (jobs : List (PackageManifest × AssetInfos)) :
    Except Err (List ExtractedPackage) :=
  mapME (fun job =>
    match oracle job.1 job.2 with
    | none => .error (.downloadOrExtractFailed job.1.name)
    | some extracted =>
      let info := (lookupA pkgInfos job.1.name).getD ("", false)
      .ok { manifest := job.1, repo_name := info.1, version := job.2.version,
            extracted := extracted, is_dep := info.2 }) jobs

/-- Seed of the collision map: every binary filename recorded in the
database, mapped to the manifest of its owning package (lines 120-129).
Rust collects into a `HashMap`, so a later binding overwrites an earlier
one. -/
def seedBins (installed : List (String × InstalledPackage)) :
    List (String × PackageManifest) :=
  (installed.flatMap (fun p => p.2.binaries.map (fun b => (b, p.2.manifest)))).foldl
    (fun m kv => insertA m kv.1 kv.2) []

/-- Collision check for the binaries of one extracted package (the inner
loop of lines 133-157): a binary name already owned by a package with a
different name is fatal; one owned by the same package name is skipped;
a fresh name is recorded and queued for copying. -/
def collisionPkg (seen : List (String × PackageManifest))
    (flat : List ExtractedBinary) (manifest : PackageManifest) :
    List ExtractedBinary →
    Except Err (List (String × PackageManifest) × List ExtractedBinary)
  | [] => .ok (seen, flat)
  | b :: rest =>
    match lookupA seen b.name with
    | some clashing =>
      if manifest.name ≠ clashing.name then
        .error (.binaryCollision manifest.name b.name clashing.name)
      else collisionPkg seen flat manifest rest
    | none => collisionPkg (seen ++ [(b.name, manifest)]) (flat ++ [b]) manifest rest

/-- Collision check over all extracted packages, producing the flattened
list of binaries to copy. -/
def collisionCheck (seen : List (String × PackageManifest))
    (flat : List ExtractedBinary) :
    List ExtractedPackage → Except Err (List ExtractedBinary)
  | [] => .ok flat
  | ep :: rest =>
    match collisionPkg seen flat ep.manifest ep.extracted.binaries with
    | .error e => .error e
    | .ok sf => collisionCheck sf.1 sf.2 rest

/-- The copy loop (lines 165-193): each flattened binary is copied to
`bin_dir / name` and then given mode `0o755`. -/
def copyBinaries (binDir : List (String × FileEntry))
    (flat : List ExtractedBinary) : List (String × FileEntry) :=
  flat.foldl (fun fs b => insertA fs b.name { content := b.content, mode := 0o755 }) binDir

/-- The database update (lines 200-228): upsert an `InstalledPackage` record
per extracted package, preserving an existing record's `installed_as_dep`. -/
def commitInstalled (now : Nat) (extracted : List ExtractedPackage)
    (installed : List (String × InstalledPackage)) :
    List (String × InstalledPackage) :=
  extracted.foldl (fun ins ep =>
    let dep := ((lookupA ins ep.manifest.name).map
      (fun i => i.installed_as_dep)).getD ep.is_dep
    insertA ins ep.manifest.name
      { manifest := ep.manifest, repo_name := ep.repo_name, version := ep.version,
        at_ := now, binaries := ep.extracted.binaries.map (fun b => b.name),
        installed_as_dep := dep }) installed

/-- The to-install list assembled by `install_pkgs` (lines 55-65). -/
def toInstallList (phases : InstallPhases) : List (ResolvedPkg × AssetInfos) :=
  phases.to_install.missing_pkgs ++ phases.to_install.missing_deps ++
    (phases.to_install.needs_updating.map (fun t => (t.1, t.2.1))) ++
    (phases.to_install.reinstall.map (fun t => (t.1, t.2.1)))

/-- `install_pkgs`: the whole install/update command.  On failure the state
reached so far is returned alongside the error.  `confirmAnswer` is the
user's reply to the confirmation prompt; `now` the commit timestamp. -/
def installPkgs (fetchO : FetchOracle) (extractO : ExtractOracle)
    (confirmAnswer : Bool) (now : Nat) (pkgs : List ResolvedPkg)
    (handling : InstalledPackagesHandling) (st : St) : Except (Err × St) St :=
  match computeInstallPhases fetchO pkgs handling st.db with
  | .error e => .error (e, st)
  | .ok phn =>
    let toInstall := toInstallList phn.1
    if toInstall.isEmpty then .ok st
    else
      let needPrompt := toInstall.any (fun pi => pi.1.is_dep)
      let st1 := { st with prompted := st.prompted || needPrompt }
      if needPrompt && !confirmAnswer then .error (.userAbort, st1)
      else
        let pkgInfos := toInstall.foldl
          (fun m pi => insertA m pi.1.manifest.name (pi.1.repository.name, pi.1.is_dep)) []
        let jobs := toInstall.map (fun pi => (pi.1.manifest, pi.2))
        let st2 := { st1 with downloads := st1.downloads + jobs.length }
        match downloadAndExtract extractO pkgInfos jobs with
        | .error e => .error (e, st2)
        | .ok extracted =>
          match collisionCheck (seedBins st2.db.installed) [] extracted with
          | .error e => .error (e, st2)
          | .ok flattened =>
            let st3 := { st2 with binDir := copyBinaries st2.binDir flattened }
            .ok { st3 with
                    db := { st3.db with
                              installed := commitInstalled now extracted st3.db.installed },
                    dbWrites := st3.dbWrites + 1 }

/-! ## Uninstaller (src/main.rs, `Action::Uninstall`, and src/resolver.rs) -/

/-- `resolve_installed_pkg`: refresh one installed package against the
registered repositories. -/
def resolveInstalledPkg (installed : InstalledPackage)
    (repos : List (String × Repository)) :
    Except Err (ResolvedPkg × InstalledPackage) :=
  match lookupA repos installed.repo_name with
  | none => .error (.orphanedInstall installed.manifest.name installed.repo_name)
  | some repository =>
    .ok ({ manifest := installed.manifest, repository := repository,
           is_dep := installed.installed_as_dep }, installed)

/-- `build_pkgs_reverse_deps_map` as a function: the names of the packages
that depend on `dep`.  The Rust map has an entry for `dep` exactly when this
list is non-empty. -/
def revDepsOf (manifests : List PackageManifest) (dep : String) : List String :=
  (manifests.filter (fun m => dep ∈ m.depends_on)).map (fun m => m.name)

/-- One fixed-point pass of `compute_no_longer_needed_deps_subroutine`:
dependencies whose reverse dependencies are all being uninstalled. -/
def orphanRound (installed : List (ResolvedPkg × InstalledPackage))
    (manifests : List PackageManifest) (uninstalling : List String) :
    List (ResolvedPkg × InstalledPackage) :=
  installed.filter (fun pi =>
    pi.2.installed_as_dep &&
      !(uninstalling.contains pi.2.manifest.name) &&
      ((revDepsOf manifests pi.2.manifest.name).filter
        (fun d => !(uninstalling.contains d))).isEmpty)

/-- `compute_no_longer_needed_deps`: iterate `orphanRound` to a fixed point
(the recursion adds at least one package per round, so `installed.length + 1`
rounds always suffice). -/
def noLongerNeededRounds (installed : List (ResolvedPkg × InstalledPackage))
    (manifests : List PackageManifest) :
    Nat → List String → List (ResolvedPkg × InstalledPackage) →
    List (ResolvedPkg × InstalledPackage)
  | 0, _, out => out
  | fuel + 1, uninstalling, out =>
    let fresh := orphanRound installed manifests uninstalling
    if fresh.isEmpty then out
    else
      noLongerNeededRounds installed manifests fuel
        (uninstalling ++ fresh.map (fun pi => pi.2.manifest.name)) (out ++ fresh)

/-- The binary deletion loop: `fs::remove_file` per path, stopping at the
first failure with the files deleted so far gone. -/
def deleteBinsLoop (fs : List (String × FileEntry)) :
    List String → List (String × FileEntry) × Option Err
  | [] => (fs, none)
  | b :: rest =>
    match lookupA fs b with
    | none => (fs, some (.removeFileFailed b))
    | some _ => deleteBinsLoop (eraseA fs b) rest

/-- The database removal loop inside `db.update`: `assert!(remove.is_some())`
per name; a failed assertion panics (`none`), aborting before the database
file is rewritten. -/
def removeInstalledLoop (ins : List (String × InstalledPackage)) :
    List String → Option (List (String × InstalledPackage))
  | [] => some ins
  | n :: rest =>
    match lookupA ins n with
    | none => none
    | some _ => removeInstalledLoop (eraseA ins n) rest

/-- The `Action::Uninstall` command.  `confirmAnswer` is the user's reply to
the confirmation prompt (a declined prompt returns success with nothing
done); `depsFlag` is `--deps`. -/
def uninstallCmd (confirmAnswer : Bool) (names : List String) (depsFlag : Bool)
    (st : St) : Except (Err × St) St :=
  let repos := st.db.repositories.map (fun p => (p.1, p.2.content))
  match mapME (fun i => resolveInstalledPkg i repos)
      (st.db.installed.map Prod.snd) with
  | .error e => .error (e, st)
  | .ok installed =>
    let manifests := installed.map (fun pi => pi.1.manifest)
    match mapME (fun n =>
        match lookupA st.db.installed n with
        | none => Except.error (Err.notInstalled n)
        | some i => resolveInstalledPkg i repos) names with
    | .error e => .error (e, st)
    | .ok toUninstall =>
      match toUninstall.find? (fun pi =>
          !((revDepsOf manifests pi.1.manifest.name).filter
            (fun d => !(names.contains d))).isEmpty) with
      | some pi => .error (.wouldBreakDependents pi.1.manifest.name, st)
      | none =>
        let orphans :=
          noLongerNeededRounds installed manifests (installed.length + 1) names []
        let toUninstall2 :=
          if depsFlag && !orphans.isEmpty then toUninstall ++ orphans else toUninstall
        let st0 := { st with prompted := true }
        if !confirmAnswer then .ok st0
        else
          let binPaths := toUninstall2.flatMap
            (fun pi => pi.2.binaries.map (fun b => (b, pi.2.manifest.name)))
          match binPaths.find? (fun bp => (lookupA st0.binDir bp.1).isNone) with
          | some bp => .error (.missingBinary bp.1 bp.2, st0)
          | none =>
            match deleteBinsLoop st0.binDir (binPaths.map Prod.fst) with
            | (fs', some e) => .error (e, { st0 with binDir := fs' })
            | (fs', none) =>
              let st1 := { st0 with binDir := fs' }
              match removeInstalledLoop st1.db.installed
                  (binPaths.map (fun bp => bp.2)) with
              | none => .error (.assertFailed, st1)
              | some ins' =>
                .ok { st1 with db := { st1.db with installed := ins' },
                               dbWrites := st1.dbWrites + 1 }

/-! ## GitHub asset-source driver (src/sources/github.rs) -/

structure GitHubReleaseAsset : Type where
  browser_download_url : String
  name : String

structure GitHubRelease : Type where
  name : Option String
  assets : List GitHubReleaseAsset
  tag_name : String

inductive GhErr : Type
  | noAssetsInRelease
  | ambiguousAsset (matching : List String)
  | noMatchingAsset (nonMatching : List String)
  | missingReleaseTitle

/-- The pure tail of `GitHubSource::fetch_infos` (lines 101-144): given the
platform's asset pattern and content description, the configured version
source, the request headers built so far, and the fetched latest release,
produce the `AssetInfos` or a driver error. -/
def githubAssetInfos (asset_pattern : Pattern) (asset_content : AssetType)
    (version_source : GitHubVersionExtraction) (headers : List (String × String))
    (release : GitHubRelease) : Except GhErr AssetInfos :=
  if release.assets.isEmpty then .error .noAssetsInRelease
  else
    let parts := release.assets.partition (fun a => asset_pattern a.name)
    if parts.1.length > 1 then
      .error (.ambiguousAsset (parts.1.map (fun a => a.name)))
    else
      match parts.1 with
      | [] => .error (.noMatchingAsset (parts.2.map (fun a => a.name)))
      | asset :: _ =>
        match version_source with
        | .tagName =>
          .ok { url := asset.browser_download_url, headers := headers,
                version := release.tag_name, typ := asset_content }
        | .releaseTitle =>
          match release.name with
          | none => .error .missingReleaseTitle
          | some title =>
            .ok { url := asset.browser_download_url, headers := headers,
                  version := title, typ := asset_content }

/-! ## Further association-list lemmas -/

theorem lookupA_insertA_self {α : Type} (l : List (String × α)) (k : String) (v : α) :
    lookupA (insertA l k v) k = some v := by
  induction l with
  | nil => simp [insertA, lookupA]
  | cons hd tl ih =>
    obtain ⟨k', v'⟩ := hd
    unfold insertA
    by_cases hk : k' = k
    · simp [hk, lookupA]
    · simp only [hk, if_false]
      unfold lookupA
      simp [hk, ih]

theorem lookupA_insertA_ne {α : Type} (l : List (String × α)) {k k2 : String} (v : α)
    (h : k ≠ k2) : lookupA (insertA l k v) k2 = lookupA l k2 := by
  induction l with
  | nil => simp [insertA, lookupA, h]
  | cons hd tl ih =>
    obtain ⟨k', v'⟩ := hd
    unfold insertA
    by_cases hk : k' = k
    · subst hk
      simp [lookupA, h]
    · simp only [hk, if_false]
      unfold lookupA
      by_cases hk2 : k' = k2
      · simp [hk2]
      · simp [hk2, ih]

theorem mem_insertA {α : Type} {l : List (String × α)} {k : String} {v : α} {e : String × α}
    (h : e ∈ insertA l k v) : e ∈ l ∨ e = (k, v) := by
  induction l with
  | nil => simp [insertA] at h; right; exact h
  | cons hd tl ih =>
    obtain ⟨k', v'⟩ := hd
    unfold insertA at h
    by_cases hk : k' = k
    · simp only [hk, if_true] at h
      rcases List.mem_cons.mp h with h1 | h1
      · right; exact h1
      · left; exact List.mem_cons_of_mem _ h1
    · simp only [hk, if_false] at h
      rcases List.mem_cons.mp h with h1 | h1
      · left; exact h1 ▸ List.mem_cons_self _ _
      · rcases ih h1 with h2 | h2
        · left; exact List.mem_cons_of_mem _ h2
        · right; exact h2

theorem keysA_insertA_of_mem {α : Type} {l : List (String × α)} {k : String} (v : α)
    (h : (lookupA l k).isSome) : keysA (insertA l k v) = keysA l := by
  induction l with
  | nil => simp [lookupA] at h
  | cons hd tl ih =>
    obtain ⟨k', v'⟩ := hd
    unfold lookupA at h
    unfold insertA
    by_cases hk : k' = k
    · simp [hk, keysA]
    · simp only [hk, if_false] at h ⊢
      simp [keysA] at ih ⊢
      exact ih h

theorem keysA_insertA_of_not_mem {α : Type} {l : List (String × α)} {k : String} (v : α)
    (h : lookupA l k = none) : keysA (insertA l k v) = keysA l ++ [k] := by
  induction l with
  | nil => simp [insertA, keysA]
  | cons hd tl ih =>
    obtain ⟨k', v'⟩ := hd
    unfold lookupA at h
    unfold insertA
    by_cases hk : k' = k
    · simp [hk] at h
    · simp only [hk, if_false] at h ⊢
      simp [keysA] at ih ⊢
      exact ih h

theorem nodup_keysA_insertA {α : Type} {l : List (String × α)} {k : String} {v : α}
    (h : (keysA l).Nodup) : (keysA (insertA l k v)).Nodup := by
  cases he : lookupA l k with
  | some v' => rw [keysA_insertA_of_mem v (by simp [he])]; exact h
  | none =>
    rw [keysA_insertA_of_not_mem v he]
    rw [List.nodup_append]
    refine ⟨h, List.nodup_singleton _, ?_⟩
    intro a ha hb
    simp at hb
    subst hb
    rcases List.mem_map.mp ha with ⟨e, he2, hke⟩
    have := lookupA_isSome_of_mem (v := e.2) (by simpa [← hke] using he2)
    rw [hke, he] at this
    simp at this

theorem eraseA_sublist {α : Type} (l : List (String × α)) (k : String) :
    (eraseA l k).Sublist l := by
  induction l with
  | nil => simp [eraseA]
  | cons hd tl ih =>
    obtain ⟨k', v'⟩ := hd
    unfold eraseA
    by_cases hk : k' = k
    · simp [hk]
    · simp only [hk, if_false]
      exact List.Sublist.cons₂ _ ih

/-! ## Claim C9: the GitHub driver's asset selection and version extraction -/

/-- **C9.**  For every GitHub release response: zero pattern matches fail
(with the non-matching asset names listed when the release has assets at
all), more than one match fails as ambiguous, and exactly one match yields
`AssetInfos` whose `url` is the matching asset's `browser_download_url` and
whose `version` is the release's `tag_name` under `TagName` or the release
title under `ReleaseTitle`, failing when `ReleaseTitle` is chosen and the
title is absent. -/
theorem github_fetch_infos_spec (pat : Pattern) (content : AssetType)
    (vs : GitHubVersionExtraction) (headers : List (String × String))
    (release : GitHubRelease) :
    (release.assets.filter (fun a => pat a.name) = [] →
      (githubAssetInfos pat content vs headers release).isOk = false) ∧
    (release.assets.filter (fun a => pat a.name) = [] → release.assets ≠ [] →
      githubAssetInfos pat content vs headers release =
        .error (.noMatchingAsset
          ((release.assets.filter (fun a => !(pat a.name))).map (fun a => a.name)))) ∧
    ((release.assets.filter (fun a => pat a.name)).length > 1 →
      githubAssetInfos pat content vs headers release =
        .error (.ambiguousAsset
          ((release.assets.filter (fun a => pat a.name)).map (fun a => a.name)))) ∧
    (∀ a, release.assets.filter (fun a => pat a.name) = [a] →
      githubAssetInfos pat content vs headers release =
        match vs with
        | .tagName =>
          .ok { url := a.browser_download_url, headers := headers,
                version := release.tag_name, typ := content }
        | .releaseTitle =>
          match release.name with
          | some title =>
            .ok { url := a.browser_download_url, headers := headers,
                  version := title, typ := content }
          | none => .error .missingReleaseTitle) := by
  unfold githubAssetInfos
  rw [List.partition_eq_filter_filter]
  refine ⟨?_, ?_, ?_, ?_⟩
  · intro hm
    cases he : release.assets.isEmpty with
    | true => simp only [he, if_true]; rfl
    | false =>
      simp only [he, Bool.false_eq_true, if_false, hm]
      rfl
  · intro hm he
    have he2 : release.assets.isEmpty = false := by
      cases hr : release.assets with
      | nil => exact absurd hr he
      | cons a l => rfl
    simp only [he2, Bool.false_eq_true, if_false, hm]
    rfl
  · intro hm
    have he2 : release.assets.isEmpty = false := by
      cases hr : release.assets with
      | nil => rw [hr, List.filter_nil] at hm; simp at hm
      | cons a l => rfl
    simp only [he2, Bool.false_eq_true, if_false]
    simp only [gt_iff_lt] at hm
    rw [if_pos hm]
  · intro a hm
    have he2 : release.assets.isEmpty = false := by
      cases hr : release.assets with
      | nil => rw [hr, List.filter_nil] at hm; simp at hm
      | cons a l => rfl
    simp only [he2, Bool.false_eq_true, if_false, hm]
    rw [if_neg (by norm_num)]
    cases vs with
    | tagName => rfl
    | releaseTitle => cases release.name with
      | none => rfl
      | some t => rfl

/-- Witness for C9, on the spec's scenario S4: the pattern matches exactly
the first asset, `TagName` is the version source, and the driver returns
`url = "u1"`, `version = "v2.3"`. -/
theorem github_fetch_infos_witness :
    githubAssetInfos (fun s => s == "app-linux-x86_64.tar.gz") (.binary "app")
      .tagName []
      { name := some "Release 2.3",
        assets := [{ browser_download_url := "u1", name := "app-linux-x86_64.tar.gz" },
                   { browser_download_url := "u2", name := "checksums.txt" }],
        tag_name := "v2.3" } =
      .ok { url := "u1", headers := [], version := "v2.3", typ := .binary "app" } := by
  have h := (github_fetch_infos_spec (fun s => s == "app-linux-x86_64.tar.gz")
    (.binary "app") .tagName []
    { name := some "Release 2.3",
      assets := [{ browser_download_url := "u1", name := "app-linux-x86_64.tar.gz" },
                 { browser_download_url := "u2", name := "checksums.txt" }],
      tag_name := "v2.3" }).2.2.2
    { browser_download_url := "u1", name := "app-linux-x86_64.tar.gz" } (by rfl)
  exact h

/-! ## Claim C10: an empty to-install set is a no-op -/

/-- **C10.**  If planning yields an empty to-install set, `install_pkgs`
returns success with the state untouched: no prompt, no download or
extraction job, no database write, binary directory and database unchanged
(the result state is exactly the input state). -/
theorem install_empty_plan_noop (fetchO : FetchOracle) (extractO : ExtractOracle)
    (confirmAnswer : Bool) (now : Nat) (pkgs : List ResolvedPkg)
    (handling : InstalledPackagesHandling) (st : St) (phases : InstallPhases) (n : Nat)
    (hplan : computeInstallPhases fetchO pkgs handling st.db = .ok (phases, n))
    (h1 : phases.to_install.missing_pkgs = [])
    (h2 : phases.to_install.missing_deps = [])
    (h3 : phases.to_install.needs_updating = [])
    (h4 : phases.to_install.reinstall = []) :
    installPkgs fetchO extractO confirmAnswer now pkgs handling st = .ok st := by
  unfold installPkgs
  rw [hplan]
  have : toInstallList phases = [] := by
    unfold toInstallList
    rw [h1, h2, h3, h4]
    simp
  simp [this]

/-- Witness for C10: installing an empty package list over an empty database
succeeds and changes nothing. -/
theorem install_empty_plan_noop_witness :
    installPkgs (fun _ => none) (fun _ _ => none) true 0 [] .ignore
      { db := { repositories := [], installed := [] }, binDir := [],
        dbWrites := 0, prompted := false, downloads := 0 } =
      .ok { db := { repositories := [], installed := [] }, binDir := [],
            dbWrites := 0, prompted := false, downloads := 0 } := by
  exact install_empty_plan_noop (fun _ => none) (fun _ _ => none) true 0 [] .ignore
    { db := { repositories := [], installed := [] }, binDir := [],
      dbWrites := 0, prompted := false, downloads := 0 }
    { untouched := { already_installed := [], already_installed_deps := [],
                     no_update_needed := [], update_available := [] },
      to_install := emptyToInstall } 0 (by rfl) rfl rfl rfl rfl

/-! ## Planner lemmas and claims C4 / C5 -/

/-- The all-empty phase classification. -/
def emptyPhasesAll : InstallPhases :=
  { untouched := { already_installed := [], already_installed_deps := [],
                   no_update_needed := [], update_available := [] },
    to_install := emptyToInstall }

/-- Unfolding of `computeInstallPhases` at the `Update` policy: no fast path,
every package is fetched and classified. -/
theorem computeInstallPhases_update (oracle : FetchOracle) (pkgs : List ResolvedPkg)
    (db : AppData) :
    computeInstallPhases oracle pkgs .update db =
      (match migrationCheck pkgs db with
       | .error e => .error e
       | .ok _ =>
         if pkgs.isEmpty then .ok (emptyPhasesAll, 0)
         else
           match fetchResolvedPkgInfos oracle pkgs with
           | .error e => .error e
           | .ok fetched =>
             .ok (fetched.foldl (pushClassified .update db) emptyPhasesAll,
                  pkgs.length)) := rfl

/-- Unfolding of `computeInstallPhases` at the `Reinstall` policy. -/
theorem computeInstallPhases_reinstall (oracle : FetchOracle) (pkgs : List ResolvedPkg)
    (db : AppData) :
    computeInstallPhases oracle pkgs .reinstall db =
      (match migrationCheck pkgs db with
       | .error e => .error e
       | .ok _ =>
         if pkgs.isEmpty then .ok (emptyPhasesAll, 0)
         else
           match fetchResolvedPkgInfos oracle pkgs with
           | .error e => .error e
           | .ok fetched =>
             .ok (fetched.foldl (pushClassified .reinstall db) emptyPhasesAll,
                  pkgs.length)) := rfl

/-- What the `Update` arm contributes to `no_update_needed` for one fetched
package. -/
def emitNoUpdate (db : AppData) (pa : ResolvedPkg × AssetInfos) : List ResolvedPkg :=
  match lookupA db.installed pa.1.manifest.name with
  | some inst => if pa.2.version = inst.version then [pa.1] else []
  | none => []

/-- What the `Update` arm contributes to `needs_updating`. -/
def emitNeedsUpdating (db : AppData) (pa : ResolvedPkg × AssetInfos) :
    List (ResolvedPkg × AssetInfos × InstalledPackage) :=
  match lookupA db.installed pa.1.manifest.name with
  | some inst => if pa.2.version = inst.version then [] else [(pa.1, pa.2, inst)]
  | none => []

/-- What the `Reinstall` arm contributes to `already_installed_deps`. -/
def emitSkippedDep (db : AppData) (pa : ResolvedPkg × AssetInfos) : List ResolvedPkg :=
  match lookupA db.installed pa.1.manifest.name with
  | some inst => if pa.1.is_dep ∧ pa.2.version = inst.version then [pa.1] else []
  | none => []

/-- What the `Reinstall` arm contributes to `reinstall`. -/
def emitReinstall (db : AppData) (pa : ResolvedPkg × AssetInfos) :
    List (ResolvedPkg × AssetInfos × InstalledPackage) :=
  match lookupA db.installed pa.1.manifest.name with
  | some inst => if pa.1.is_dep ∧ pa.2.version = inst.version then [] else [(pa.1, pa.2, inst)]
  | none => []

theorem pushClassified_update_noUpdate (db : AppData) (ph : InstallPhases)
    (pa : ResolvedPkg × AssetInfos) :
    (pushClassified .update db ph pa).untouched.no_update_needed =
      ph.untouched.no_update_needed ++ emitNoUpdate db pa := by
  unfold pushClassified emitNoUpdate
  cases lookupA db.installed pa.1.manifest.name with
  | none => cases pa.1.is_dep <;> simp
  | some inst => by_cases hv : pa.2.version = inst.version <;> simp [hv]

theorem pushClassified_update_needsUpdating (db : AppData) (ph : InstallPhases)
    (pa : ResolvedPkg × AssetInfos) :
    (pushClassified .update db ph pa).to_install.needs_updating =
      ph.to_install.needs_updating ++ emitNeedsUpdating db pa := by
  unfold pushClassified emitNeedsUpdating
  cases lookupA db.installed pa.1.manifest.name with
  | none => cases pa.1.is_dep <;> simp
  | some inst => by_cases hv : pa.2.version = inst.version <;> simp [hv]

theorem pushClassified_reinstall_skippedDep (db : AppData) (ph : InstallPhases)
    (pa : ResolvedPkg × AssetInfos) :
    (pushClassified .reinstall db ph pa).untouched.already_installed_deps =
      ph.untouched.already_installed_deps ++ emitSkippedDep db pa := by
  unfold pushClassified emitSkippedDep
  cases lookupA db.installed pa.1.manifest.name with
  | none => cases pa.1.is_dep <;> simp
  | some inst =>
    by_cases hv : pa.1.is_dep ∧ pa.2.version = inst.version <;> simp [hv]

theorem pushClassified_reinstall_reinstall (db : AppData) (ph : InstallPhases)
    (pa : ResolvedPkg × AssetInfos) :
    (pushClassified .reinstall db ph pa).to_install.reinstall =
      ph.to_install.reinstall ++ emitReinstall db pa := by
  unfold pushClassified emitReinstall
  cases lookupA db.installed pa.1.manifest.name with
  | none => cases pa.1.is_dep <;> simp
  | some inst =>
    by_cases hv : pa.1.is_dep ∧ pa.2.version = inst.version <;> simp [hv]

/-- Generic characterization of a classification fold: if one step appends
`emit b` to a bucket, the whole fold appends the concatenation. -/
theorem foldl_bucket_append {β γ : Type} (step : InstallPhases → β → InstallPhases)
    (view : InstallPhases → List γ) (emit : β → List γ)
    (hstep : ∀ ph b, view (step ph b) = view ph ++ emit b)
    (l : List β) (ph : InstallPhases) :
    view (l.foldl step ph) = view ph ++ l.flatMap emit := by
  induction l generalizing ph with
  | nil => simp
  | cons b l ih =>
    rw [List.foldl_cons, ih, hstep]
    simp

/-- Successful `fetch_resolved_pkg_infos` pairs each package with exactly its
oracle answer. -/
theorem fetchInfos_ok_spec (oracle : FetchOracle) (pkgs : List ResolvedPkg)
    (fetched : List (ResolvedPkg × AssetInfos))
    (h : fetchResolvedPkgInfos oracle pkgs = .ok fetched) :
    (∀ p ∈ pkgs, ∀ infos, oracle p.manifest = some infos → (p, infos) ∈ fetched) ∧
    (∀ pa ∈ fetched, pa.1 ∈ pkgs ∧ oracle pa.1.manifest = some pa.2) := by
  induction pkgs generalizing fetched with
  | nil =>
    unfold fetchResolvedPkgInfos mapME at h
    simp at h
    subst h
    exact ⟨by simp, by simp⟩
  | cons p l ih =>
    unfold fetchResolvedPkgInfos at h ih
    unfold mapME at h
    cases ho : oracle p.manifest with
    | none => rw [ho] at h; simp at h
    | some infos =>
      rw [ho] at h
      simp only at h
      cases hrest : mapME (fun p =>
          match oracle p.manifest with
          | some infos => Except.ok (p, infos)
          | none => Except.error (Err.fetchFailed p.manifest.name)) l with
      | error e => rw [hrest] at h; simp at h
      | ok rest =>
        rw [hrest] at h
        simp only [Except.ok.injEq] at h
        subst h
        obtain ⟨ih1, ih2⟩ := ih rest hrest
        constructor
        · intro q hq infos2 ho2
          rcases List.mem_cons.mp hq with h1 | h1
          · subst h1
            rw [ho] at ho2
            injection ho2 with ho3
            subst ho3
            exact List.mem_cons_self _ _
          · exact List.mem_cons_of_mem _ (ih1 q h1 infos2 ho2)
        · intro pa hpa
          rcases List.mem_cons.mp hpa with h1 | h1
          · subst h1
            exact ⟨List.mem_cons_self _ _, ho⟩
          · obtain ⟨ha, hb⟩ := ih2 pa h1
            exact ⟨List.mem_cons_of_mem _ ha, hb⟩

/-- **C4.**  For every resolved package whose name is installed: under the
`Update` policy the planner puts it in `no_update_needed` exactly when the
fetched version string equals the installed version string, and in
`needs_updating` exactly otherwise; under the `Reinstall` policy a
dependency with unchanged version is skipped into `already_installed_deps`
exactly when the versions are equal, and reinstalled exactly otherwise. -/
theorem planner_version_string_equality (oracle : FetchOracle) (db : AppData) :
    (∀ pkgs phases n, computeInstallPhases oracle pkgs .update db = .ok (phases, n) →
      ∀ p ∈ pkgs, ∀ infos inst, oracle p.manifest = some infos →
        lookupA db.installed p.manifest.name = some inst →
        ((p ∈ phases.untouched.no_update_needed ↔ infos.version = inst.version) ∧
         ((p, infos, inst) ∈ phases.to_install.needs_updating ↔
           infos.version ≠ inst.version))) ∧
    (∀ pkgs phases n, computeInstallPhases oracle pkgs .reinstall db = .ok (phases, n) →
      ∀ p ∈ pkgs, ∀ infos inst, oracle p.manifest = some infos →
        lookupA db.installed p.manifest.name = some inst → p.is_dep = true →
        ((p ∈ phases.untouched.already_installed_deps ↔ infos.version = inst.version) ∧
         ((p, infos, inst) ∈ phases.to_install.reinstall ↔
           infos.version ≠ inst.version))) := by
  constructor
  · intro pkgs phases n h p hp infos inst ho hinst
    rw [computeInstallPhases_update] at h
    cases hm : migrationCheck pkgs db with
    | error e => rw [hm] at h; exact absurd h (by simp)
    | ok u =>
      rw [hm] at h
      have hne : pkgs.isEmpty = false := by
        cases hpk : pkgs with
        | nil => rw [hpk] at hp; simp at hp
        | cons a l => rfl
      rw [hne] at h
      simp only [Bool.false_eq_true, if_false] at h
      cases hf : fetchResolvedPkgInfos oracle pkgs with
      | error e => rw [hf] at h; exact absurd h (by simp)
      | ok fetched =>
        rw [hf] at h
        simp only [Except.ok.injEq, Prod.mk.injEq] at h
        obtain ⟨hph, _⟩ := h
        obtain ⟨hfw, hbw⟩ := fetchInfos_ok_spec oracle pkgs fetched hf
        constructor
        · rw [← hph,
            foldl_bucket_append (pushClassified .update db)
              (fun ph => ph.untouched.no_update_needed) (emitNoUpdate db)
              (pushClassified_update_noUpdate db) fetched emptyPhasesAll]
          simp only [emptyPhasesAll, List.nil_append, List.mem_flatMap]
          constructor
          · rintro ⟨pa, hpa, hmem⟩
            obtain ⟨hq, ho2⟩ := hbw pa hpa
            unfold emitNoUpdate at hmem
            cases hl : lookupA db.installed pa.1.manifest.name with
            | none => rw [hl] at hmem; simp at hmem
            | some inst2 =>
              rw [hl] at hmem
              by_cases hv : pa.2.version = inst2.version
              · simp [hv] at hmem
                subst hmem
                rw [ho] at ho2
                injection ho2 with ho3
                rw [hinst] at hl
                injection hl with hl2
                rw [ho3, hl2]
                exact hv
              · simp [hv] at hmem
          · intro hv
            refine ⟨(p, infos), hfw p hp infos ho, ?_⟩
            simp [emitNoUpdate, hinst, hv]
        · rw [← hph,
            foldl_bucket_append (pushClassified .update db)
              (fun ph => ph.to_install.needs_updating) (emitNeedsUpdating db)
              (pushClassified_update_needsUpdating db) fetched emptyPhasesAll]
          simp only [emptyPhasesAll, emptyToInstall, List.nil_append, List.mem_flatMap]
          constructor
          · rintro ⟨pa, hpa, hmem⟩
            obtain ⟨hq, ho2⟩ := hbw pa hpa
            unfold emitNeedsUpdating at hmem
            cases hl : lookupA db.installed pa.1.manifest.name with
            | none => rw [hl] at hmem; simp at hmem
            | some inst2 =>
              rw [hl] at hmem
              by_cases hv : pa.2.version = inst2.version
              · simp [hv] at hmem
              · simp [hv] at hmem
                obtain ⟨h1, h2, h3⟩ := hmem
                subst h1
                subst h3
                subst h2
                exact hv
          · intro hv
            refine ⟨(p, infos), hfw p hp infos ho, ?_⟩
            simp [emitNeedsUpdating, hinst, hv]
  · intro pkgs phases n h p hp infos inst ho hinst hdep
    rw [computeInstallPhases_reinstall] at h
    cases hm : migrationCheck pkgs db with
    | error e => rw [hm] at h; exact absurd h (by simp)
    | ok u =>
      rw [hm] at h
      have hne : pkgs.isEmpty = false := by
        cases hpk : pkgs with
        | nil => rw [hpk] at hp; simp at hp
        | cons a l => rfl
      rw [hne] at h
      simp only [Bool.false_eq_true, if_false] at h
      cases hf : fetchResolvedPkgInfos oracle pkgs with
      | error e => rw [hf] at h; exact absurd h (by simp)
      | ok fetched =>
        rw [hf] at h
        simp only [Except.ok.injEq, Prod.mk.injEq] at h
        obtain ⟨hph, _⟩ := h
        obtain ⟨hfw, hbw⟩ := fetchInfos_ok_spec oracle pkgs fetched hf
        constructor
        · rw [← hph,
            foldl_bucket_append (pushClassified .reinstall db)
              (fun ph => ph.untouched.already_installed_deps) (emitSkippedDep db)
              (pushClassified_reinstall_skippedDep db) fetched emptyPhasesAll]
          simp only [emptyPhasesAll, List.nil_append, List.mem_flatMap]
          constructor
          · rintro ⟨pa, hpa, hmem⟩
            obtain ⟨hq, ho2⟩ := hbw pa hpa
            unfold emitSkippedDep at hmem
            cases hl : lookupA db.installed pa.1.manifest.name with
            | none => rw [hl] at hmem; simp at hmem
            | some inst2 =>
              rw [hl] at hmem
              by_cases hv : pa.1.is_dep ∧ pa.2.version = inst2.version
              · simp [hv] at hmem
                subst hmem
                rw [ho] at ho2
                injection ho2 with ho3
                rw [hinst] at hl
                injection hl with hl2
                rw [ho3, hl2]
                exact hv.2
              · simp [hv] at hmem
          · intro hv
            refine ⟨(p, infos), hfw p hp infos ho, ?_⟩
            simp [emitSkippedDep, hinst, hdep, hv]
        · rw [← hph,
            foldl_bucket_append (pushClassified .reinstall db)
              (fun ph => ph.to_install.reinstall) (emitReinstall db)
              (pushClassified_reinstall_reinstall db) fetched emptyPhasesAll]
          simp only [emptyPhasesAll, emptyToInstall, List.nil_append, List.mem_flatMap]
          constructor
          · rintro ⟨pa, hpa, hmem⟩
            obtain ⟨hq, ho2⟩ := hbw pa hpa
            unfold emitReinstall at hmem
            cases hl : lookupA db.installed pa.1.manifest.name with
            | none => rw [hl] at hmem; simp at hmem
            | some inst2 =>
              rw [hl] at hmem
              by_cases hv : pa.1.is_dep ∧ pa.2.version = inst2.version
              · simp [hv] at hmem
              · simp [hv] at hmem
                obtain ⟨h1, h2, h3⟩ := hmem
                subst h1
                subst h3
                subst h2
                intro heq
                exact hv ⟨hdep, heq⟩
          · intro hv
            refine ⟨(p, infos), hfw p hp infos ho, ?_⟩
            simp [emitReinstall, hinst, hv]

/-! Concrete fixtures for the planner claims. -/

/-- A manifest with a Direct source (no pattern inside, so equalities on the
fixtures are decidable). -/
def manifestU : PackageManifest :=
  { name := "u", source := .direct { urls := [], hardcoded_version := "v1" },
    depends_on := [] }

def repoU : Repository :=
  { name := "r", description := "", packages := [("u", manifestU)] }

def installedU : InstalledPackage :=
  { manifest := manifestU, repo_name := "r", version := "v1", at_ := 0,
    binaries := ["u"], installed_as_dep := false }

def dbU : AppData := { repositories := [], installed := [("u", installedU)] }

def pkgU : ResolvedPkg := { manifest := manifestU, repository := repoU, is_dep := false }

def infosU : AssetInfos :=
  { url := "http://h/u", headers := [], version := "v1", typ := .binary "u" }

def oracleU : FetchOracle := fun _ => some infosU

def phasesU : InstallPhases :=
  { untouched := { already_installed := [], already_installed_deps := [],
                   no_update_needed := [pkgU], update_available := [] },
    to_install := emptyToInstall }

/-- Witness for C4, on the spec's scenario S3: policy `Update`, installed
version `"v1"`, fetched version `"v1"`; the package is classified
`no_update_needed`. -/
theorem planner_version_string_equality_witness :
    pkgU ∈ phasesU.untouched.no_update_needed :=
  ((planner_version_string_equality oracleU dbU).1 [pkgU] phasesU 1 (by rfl)
    pkgU (by simp) infosU installedU rfl rfl).1.mpr rfl

/-! ## Claim C5 (corrected): the Ignore fast path -/

/-- The same package resolved from a repository named `"r2"`, while the
database records it as installed from `"r"`. -/
def pkgUMigrated : ResolvedPkg :=
  { manifest := manifestU,
    repository := { name := "r2", description := "", packages := [("u", manifestU)] },
    is_dep := false }

/-- Counterexample to C5 as stated: the policy is `Ignore` and the only
resolved package (a non-dependency) is installed, yet `compute_install_phases`
does not classify it: the repository-migration pre-check runs first and fails
because the package is installed from repository `"r"` but resolved from
`"r2"`. -/
theorem ignore_fast_path_counterexample :
    pkgUMigrated.is_dep = false ∧
    (lookupA dbU.installed pkgUMigrated.manifest.name).isSome = true ∧
    (computeInstallPhases oracleU [pkgUMigrated] .ignore dbU).isOk = false :=
  ⟨rfl, rfl, rfl⟩

/-- **C5 (amended).**  If the policy is `Ignore`, every non-dependency
resolved package is already installed, and the migration pre-check passes
(each installed name was installed from the repository it now resolves to),
then `compute_install_phases` classifies all resolved packages into
`already_installed` (non-deps) and `already_installed_deps` (deps), returns
an empty to-install set, and fetches no asset info (count `0`, and the
result does not depend on the fetch oracle at all). -/
theorem ignore_fast_path (oracle : FetchOracle) (pkgs : List ResolvedPkg)
    (db : AppData)
    (h1 : ∀ p ∈ pkgs, p.is_dep = false → (lookupA db.installed p.manifest.name).isSome)
    (h2 : ∀ p ∈ pkgs, ∀ inst, lookupA db.installed p.manifest.name = some inst →
      inst.repo_name = p.repository.name) :
    computeInstallPhases oracle pkgs .ignore db =
      .ok ({ untouched :=
               { already_installed := pkgs.filter (fun p => !p.is_dep),
                 already_installed_deps := pkgs.filter (fun p => p.is_dep),
                 no_update_needed := [], update_available := [] },
             to_install := emptyToInstall }, 0) := by
  unfold computeInstallPhases
  have hm : migrationCheck pkgs db = .ok () := by
    unfold migrationCheck
    have hfind : pkgs.find? (fun pkg =>
        match lookupA db.installed pkg.manifest.name with
        | some installed => installed.repo_name != pkg.repository.name
        | none => false) = none := by
      rw [List.find?_eq_none]
      intro p hp
      cases hl : lookupA db.installed p.manifest.name with
      | none => simp
      | some inst =>
        simp only []
        rw [h2 p hp inst hl]
        simp
    rw [hfind]
  rw [hm]
  have hc : ((match InstalledPackagesHandling.ignore with
        | .ignore => true | _ => false) &&
      (pkgs.filter (fun p : ResolvedPkg => !p.is_dep)).all
        (fun pkg => (lookupA db.installed pkg.manifest.name).isSome)) = true := by
    rw [Bool.and_eq_true]
    refine ⟨rfl, ?_⟩
    rw [List.all_eq_true]
    intro p hp
    obtain ⟨hmem, hcond⟩ := List.mem_filter.mp hp
    exact h1 p hmem (by simpa using hcond)
  rw [if_pos hc, List.partition_eq_filter_filter]
  rfl

/-- Witness for the amended C5: one installed non-dependency package under
`Ignore` takes the fast path and is classified `already_installed` with
nothing to install and no fetch. -/
theorem ignore_fast_path_witness :
    computeInstallPhases oracleU [pkgU] .ignore dbU =
      .ok ({ untouched :=
               { already_installed := [pkgU].filter (fun p => !p.is_dep),
                 already_installed_deps := [pkgU].filter (fun p => p.is_dep),
                 no_update_needed := [], update_available := [] },
             to_install := emptyToInstall }, 0) :=
  ignore_fast_path oracleU [pkgU] dbU
    (by intro p hp hd
        rw [List.mem_singleton] at hp
        subst hp
        rfl)
    (by intro p hp inst hinst
        rw [List.mem_singleton] at hp
        subst hp
        have h2 : (some installedU : Option InstalledPackage) = some inst := hinst
        injection h2 with h3
        rw [← h3]
        rfl)

/-! ## Collision-check lemmas (claims C2 / C3) -/

/-- The binary filenames an extracted package wants to place. -/
def binNames (ep : ExtractedPackage) : List String :=
  ep.extracted.binaries.map (fun b => b.name)

/-- No two distinct installed records share a binary filename. -/
def DisjointBins (installed : List (String × InstalledPackage)) : Prop :=
  installed.Pairwise (fun a b => ∀ x ∈ a.2.binaries, x ∉ b.2.binaries)

/-- Database invariant: every installed record is keyed by its manifest name. -/
def KeyedByName (installed : List (String × InstalledPackage)) : Prop :=
  ∀ e ∈ installed, e.2.manifest.name = e.1

theorem collisionPkg_mono {seen : List (String × PackageManifest)}
    {flat : List ExtractedBinary} {mf : PackageManifest} {bins : List ExtractedBinary}
    {seen' : List (String × PackageManifest)} {flat' : List ExtractedBinary}
    (h : collisionPkg seen flat mf bins = .ok (seen', flat')) :
    ∀ k v, lookupA seen k = some v → lookupA seen' k = some v := by
  induction bins generalizing seen flat with
  | nil =>
    unfold collisionPkg at h
    simp only [Except.ok.injEq, Prod.mk.injEq] at h
    obtain ⟨h1, _⟩ := h
    subst h1
    intro k v hk
    exact hk
  | cons b rest ih =>
    unfold collisionPkg at h
    cases hl : lookupA seen b.name with
    | some clashing =>
      rw [hl] at h
      simp only at h
      by_cases hn : mf.name ≠ clashing.name
      · rw [if_pos hn] at h; exact absurd h (by simp)
      · rw [if_neg hn] at h
        exact ih h
    | none =>
      rw [hl] at h
      simp only at h
      intro k v hk
      exact ih h k v (lookupA_append_left hk)

theorem collisionPkg_ok_owner {seen : List (String × PackageManifest)}
    {flat : List ExtractedBinary} {mf : PackageManifest} {bins : List ExtractedBinary}
    {seen' : List (String × PackageManifest)} {flat' : List ExtractedBinary}
    (h : collisionPkg seen flat mf bins = .ok (seen', flat')) :
    ∀ b ∈ bins, ∀ m, lookupA seen b.name = some m → m.name = mf.name := by
  induction bins generalizing seen flat with
  | nil => intro b hb; simp at hb
  | cons b0 rest ih =>
    unfold collisionPkg at h
    intro b hb m hm
    rcases List.mem_cons.mp hb with hb1 | hb1
    · subst hb1
      rw [hm] at h
      simp only at h
      by_cases hn : mf.name ≠ m.name
      · rw [if_pos hn] at h; exact absurd h (by simp)
      · push_neg at hn
        exact hn.symm
    · cases hl : lookupA seen b0.name with
      | some clashing =>
        rw [hl] at h
        simp only at h
        by_cases hn : mf.name ≠ clashing.name
        · rw [if_pos hn] at h; exact absurd h (by simp)
        · rw [if_neg hn] at h
          exact ih h b hb1 m hm
      | none =>
        rw [hl] at h
        simp only at h
        exact ih h b hb1 m (lookupA_append_left hm)

theorem collisionPkg_ok_covers {seen : List (String × PackageManifest)}
    {flat : List ExtractedBinary} {mf : PackageManifest} {bins : List ExtractedBinary}
    {seen' : List (String × PackageManifest)} {flat' : List ExtractedBinary}
    (h : collisionPkg seen flat mf bins = .ok (seen', flat')) :
    ∀ b ∈ bins, ∃ m, lookupA seen' b.name = some m ∧ m.name = mf.name := by
  induction bins generalizing seen flat with
  | nil => intro b hb; simp at hb
  | cons b0 rest ih =>
    unfold collisionPkg at h
    intro b hb
    rcases List.mem_cons.mp hb with hb1 | hb1
    · subst hb1
      cases hl : lookupA seen b.name with
      | some clashing =>
        rw [hl] at h
        simp only at h
        by_cases hn : mf.name ≠ clashing.name
        · rw [if_pos hn] at h; exact absurd h (by simp)
        · rw [if_neg hn] at h
          push_neg at hn
          exact ⟨clashing, collisionPkg_mono h b.name clashing hl, hn.symm⟩
      | none =>
        rw [hl] at h
        simp only at h
        have hself : lookupA (seen ++ [(b.name, mf)]) b.name = some mf := by
          rw [lookupA_append_right hl]
          unfold lookupA
          simp
        exact ⟨mf, collisionPkg_mono h b.name mf hself, rfl⟩
    · cases hl : lookupA seen b0.name with
      | some clashing =>
        rw [hl] at h
        simp only at h
        by_cases hn : mf.name ≠ clashing.name
        · rw [if_pos hn] at h; exact absurd h (by simp)
        · rw [if_neg hn] at h
          exact ih h b hb1
      | none =>
        rw [hl] at h
        simp only at h
        exact ih h b hb1

theorem collisionCheck_ok_owner {seen : List (String × PackageManifest)}
    {flat : List ExtractedBinary} {eps : List ExtractedPackage}
    {out : List ExtractedBinary}
    (h : collisionCheck seen flat eps = .ok out) :
    ∀ ep ∈ eps, ∀ b ∈ ep.extracted.binaries, ∀ m,
      lookupA seen b.name = some m → m.name = ep.manifest.name := by
  induction eps generalizing seen flat with
  | nil => intro ep hep; simp at hep
  | cons ep0 rest ih =>
    unfold collisionCheck at h
    cases hc : collisionPkg seen flat ep0.manifest ep0.extracted.binaries with
    | error e => rw [hc] at h; exact absurd h (by simp)
    | ok sf =>
      rw [hc] at h
      simp only at h
      intro ep hep b hb m hm
      rcases List.mem_cons.mp hep with hep1 | hep1
      · subst hep1
        exact collisionPkg_ok_owner hc b hb m hm
      · exact ih h ep hep1 b hb m (collisionPkg_mono hc b.name m hm)

theorem collisionCheck_ok_pairwise {seen : List (String × PackageManifest)}
    {flat : List ExtractedBinary} {eps : List ExtractedPackage}
    {out : List ExtractedBinary}
    (h : collisionCheck seen flat eps = .ok out) :
    eps.Pairwise (fun a b => a.manifest.name = b.manifest.name ∨
      ∀ x ∈ binNames a, x ∉ binNames b) := by
  induction eps generalizing seen flat with
  | nil => exact List.Pairwise.nil
  | cons ep0 rest ih =>
    unfold collisionCheck at h
    cases hc : collisionPkg seen flat ep0.manifest ep0.extracted.binaries with
    | error e => rw [hc] at h; exact absurd h (by simp)
    | ok sf =>
      rw [hc] at h
      simp only at h
      refine List.Pairwise.cons ?_ (ih h)
      intro ep hep
      by_cases hn : ep0.manifest.name = ep.manifest.name
      · exact Or.inl hn
      · refine Or.inr ?_
        intro x hx hx2
        obtain ⟨b0, hb0, hb0n⟩ := List.mem_map.mp hx
        obtain ⟨b1, hb1, hb1n⟩ := List.mem_map.mp hx2
        obtain ⟨m, hm, hmn⟩ := collisionPkg_ok_covers hc b0 hb0
        have hm1 : lookupA sf.1 b1.name = some m := by
          rw [hb1n, ← hb0n]
          exact hm
        have := collisionCheck_ok_owner h ep hep b1 hb1 m hm1
        exact hn (by rw [← hmn, this])

theorem collisionPkg_flat_inv {seen : List (String × PackageManifest)}
    {flat : List ExtractedBinary} {mf : PackageManifest} {bins : List ExtractedBinary}
    {seen' : List (String × PackageManifest)} {flat' : List ExtractedBinary}
    (h : collisionPkg seen flat mf bins = .ok (seen', flat'))
    (h1 : ∀ b ∈ flat, (lookupA seen b.name).isSome)
    (h2 : (flat.map (fun b => b.name)).Nodup) :
    (∀ b ∈ flat', (lookupA seen' b.name).isSome) ∧
      (flat'.map (fun b => b.name)).Nodup := by
  induction bins generalizing seen flat with
  | nil =>
    unfold collisionPkg at h
    simp only [Except.ok.injEq, Prod.mk.injEq] at h
    obtain ⟨ha, hb⟩ := h
    subst ha
    subst hb
    exact ⟨h1, h2⟩
  | cons b0 rest ih =>
    unfold collisionPkg at h
    cases hl : lookupA seen b0.name with
    | some clashing =>
      rw [hl] at h
      simp only at h
      by_cases hn : mf.name ≠ clashing.name
      · rw [if_pos hn] at h; exact absurd h (by simp)
      · rw [if_neg hn] at h
        exact ih h h1 h2
    | none =>
      rw [hl] at h
      simp only at h
      refine ih h ?_ ?_
      · intro b hb
        rcases List.mem_append.mp hb with hb1 | hb1
        · have := h1 b hb1
          cases hs : lookupA seen b.name with
          | none => rw [hs] at this; simp at this
          | some m => rw [lookupA_append_left hs]; rfl
        · rw [List.mem_singleton] at hb1
          subst hb1
          rw [lookupA_append_right hl]
          unfold lookupA
          simp
      · rw [List.map_append]
        rw [List.nodup_append]
        refine ⟨h2, by simp, ?_⟩
        intro x hx hy
        simp at hy
        subst hy
        obtain ⟨b, hb, hbn⟩ := List.mem_map.mp hx
        have := h1 b hb
        rw [hbn, hl] at this
        simp at this

theorem collisionCheck_ok_flat_nodup {seen : List (String × PackageManifest)}
    {flat : List ExtractedBinary} {eps : List ExtractedPackage}
    {out : List ExtractedBinary}
    (h : collisionCheck seen flat eps = .ok out)
    (h1 : ∀ b ∈ flat, (lookupA seen b.name).isSome)
    (h2 : (flat.map (fun b => b.name)).Nodup) :
    (out.map (fun b => b.name)).Nodup := by
  induction eps generalizing seen flat with
  | nil =>
    unfold collisionCheck at h
    simp only [Except.ok.injEq] at h
    subst h
    exact h2
  | cons ep0 rest ih =>
    unfold collisionCheck at h
    cases hc : collisionPkg seen flat ep0.manifest ep0.extracted.binaries with
    | error e => rw [hc] at h; exact absurd h (by simp)
    | ok sf =>
      rw [hc] at h
      simp only at h
      obtain ⟨hi1, hi2⟩ := collisionPkg_flat_inv hc h1 h2
      exact ih h hi1 hi2

def isBinaryCollision : Err → Bool
  | .binaryCollision _ _ _ => true
  | _ => false

/-- Any failing `install_pkgs` run in this model leaves the binary
directory, the database and the database-file write count untouched
(the model's copy loop is total, and every error exit happens before it). -/
theorem installPkgs_error_unchanged (fetchO : FetchOracle) (extractO : ExtractOracle)
    (ca : Bool) (now : Nat) (pkgs : List ResolvedPkg)
    (handling : InstalledPackagesHandling) (st : St) (e : Err) (st' : St)
    (h : installPkgs fetchO extractO ca now pkgs handling st = .error (e, st')) :
    st'.binDir = st.binDir ∧ st'.db = st.db ∧ st'.dbWrites = st.dbWrites := by
  unfold installPkgs at h
  simp only at h
  split at h
  · simp only [Except.error.injEq, Prod.mk.injEq] at h
    obtain ⟨-, hs⟩ := h
    rw [← hs]
    exact ⟨rfl, rfl, rfl⟩
  · split at h
    · exact absurd h (by simp)
    · split at h
      · simp only [Except.error.injEq, Prod.mk.injEq] at h
        obtain ⟨-, hs⟩ := h
        rw [← hs]
        exact ⟨rfl, rfl, rfl⟩
      · split at h
        · simp only [Except.error.injEq, Prod.mk.injEq] at h
          obtain ⟨-, hs⟩ := h
          rw [← hs]
          exact ⟨rfl, rfl, rfl⟩
        · split at h
          · simp only [Except.error.injEq, Prod.mk.injEq] at h
            obtain ⟨-, hs⟩ := h
            rw [← hs]
            exact ⟨rfl, rfl, rfl⟩
          · exact absurd h (by simp)

/-- **C2 (amended).**  During an install command a map
`binary_filename → owning package` is seeded from the current database
(`seedBins`).  (1) A command that fails with `BinaryCollision` writes no
binary to the binary directory and does not touch the database.
(2) The collision check fails whenever some extracted binary name is
already owned in the seeded map by a package with a different name.
(3) Two binaries extracted for the same package with the same `copy_as`
name are NOT an error: on success each binary filename is copied at most
once (the flattened copy list has pairwise-distinct names); the duplicate
is silently skipped. -/
theorem binary_collision_check_behaviour :
    (∀ fetchO extractO ca now pkgs handling st e st',
      installPkgs fetchO extractO ca now pkgs handling st = .error (e, st') →
      isBinaryCollision e = true →
      st'.binDir = st.binDir ∧ st'.db = st.db ∧ st'.dbWrites = st.dbWrites) ∧
    (∀ installed flat eps,
      (∃ ep ∈ eps, ∃ b ∈ ep.extracted.binaries, ∃ m,
        lookupA (seedBins installed) b.name = some m ∧ m.name ≠ ep.manifest.name) →
      (collisionCheck (seedBins installed) flat eps).isOk = false) ∧
    (∀ installed eps out,
      collisionCheck (seedBins installed) [] eps = .ok out →
      (out.map (fun b => b.name)).Nodup) := by
  refine ⟨?_, ?_, ?_⟩
  · intro fetchO extractO ca now pkgs handling st e st' h _
    exact installPkgs_error_unchanged fetchO extractO ca now pkgs handling st e st' h
  · intro installed flat eps hclash
    obtain ⟨ep, hep, b, hb, m, hm, hne⟩ := hclash
    cases hr : collisionCheck (seedBins installed) flat eps with
    | error e => rfl
    | ok out => exact absurd (collisionCheck_ok_owner hr ep hep b hb m hm) hne
  · intro installed eps out h
    exact collisionCheck_ok_flat_nodup h (by intro b hb; simp at hb) (by simp)

/-! Fixture for the C2 counterexample and collision witnesses. -/

def manifestD : PackageManifest :=
  { name := "d", source := .direct { urls := [], hardcoded_version := "v" },
    depends_on := [] }

def repoD : Repository :=
  { name := "rd", description := "", packages := [("d", manifestD)] }

def pkgD : ResolvedPkg := { manifest := manifestD, repository := repoD, is_dep := false }

def stD : St :=
  { db := { repositories := [("rd", { content := repoD })], installed := [] },
    binDir := [], dbWrites := 0, prompted := false, downloads := 0 }

def fetchD : FetchOracle :=
  fun _ => some { url := "u", headers := [], version := "v", typ := .binary "x" }

/-- The extraction yields two binaries with the same `copy_as` name `"x"`
(as an archive whose two patterns share one `copy_as` would). -/
def extractD : ExtractOracle :=
  fun _ _ => some { binaries := [{ name := "x", content := "c1" },
                                 { name := "x", content := "c2" }] }

/-- Counterexample to C2 as stated: a fresh install whose extraction yields
two binaries with the same `copy_as` name for the same package succeeds —
it does not fail with `BinaryCollision`.  Only the first binary is copied,
but the database records the name twice. -/
theorem binary_collision_counterexample :
    installPkgs fetchD extractD true 0 [pkgD] .ignore stD =
      .ok { db := { repositories := [("rd", { content := repoD })],
                    installed := [("d",
                      { manifest := manifestD, repo_name := "rd", version := "v",
                        at_ := 0, binaries := ["x", "x"],
                        installed_as_dep := false })] },
            binDir := [("x", { content := "c1", mode := 0o755 })],
            dbWrites := 1, prompted := false, downloads := 1 } := by rfl

/-- A database in which package `"a"` owns the binary `"x"`. -/
def manifestA : PackageManifest :=
  { name := "a", source := .direct { urls := [], hardcoded_version := "1" },
    depends_on := [] }

def installedA : InstalledPackage :=
  { manifest := manifestA, repo_name := "rd", version := "1", at_ := 0,
    binaries := ["x"], installed_as_dep := false }

/-- A second package `"b"` whose extraction also yields the binary `"x"`. -/
def manifestB : PackageManifest :=
  { name := "b", source := .direct { urls := [], hardcoded_version := "1" },
    depends_on := [] }

def epB : ExtractedPackage :=
  { manifest := manifestB, repo_name := "rd", version := "1",
    extracted := { binaries := [{ name := "x", content := "c" }] }, is_dep := false }

def stAB : St :=
  { db := { repositories := [("rd", { content := repoD })],
            installed := [("a", installedA)] },
    binDir := [("x", { content := "old", mode := 0o755 })],
    dbWrites := 0, prompted := false, downloads := 0 }

def pkgB : ResolvedPkg := { manifest := manifestB, repository := repoD, is_dep := false }

def extractB : ExtractOracle :=
  fun _ _ => some { binaries := [{ name := "x", content := "c" }] }

/-- The duplicate-name extraction of `stD`'s run, as an extracted package. -/
def epD : ExtractedPackage :=
  { manifest := manifestD, repo_name := "rd", version := "v",
    extracted := { binaries := [{ name := "x", content := "c1" },
                                { name := "x", content := "c2" }] },
    is_dep := false }

/-- Witness for C2: installing `"b"` over a database where `"a"` owns `"x"`
fails with `BinaryCollision` and leaves the binary directory and database
untouched; the seeded-map clash makes the check fail; and the duplicate-name
success run copies each name at most once. -/
theorem binary_collision_check_behaviour_witness :
    (({ db := stAB.db, binDir := stAB.binDir, dbWrites := 0, prompted := false,
        downloads := 1 } : St).binDir = stAB.binDir ∧
     ({ db := stAB.db, binDir := stAB.binDir, dbWrites := 0, prompted := false,
        downloads := 1 } : St).db = stAB.db ∧
     ({ db := stAB.db, binDir := stAB.binDir, dbWrites := 0, prompted := false,
        downloads := 1 } : St).dbWrites = stAB.dbWrites) ∧
    (collisionCheck (seedBins stAB.db.installed) [] [epB]).isOk = false ∧
    ((List.cons { name := "x", content := "c1" } []).map
      (fun b : ExtractedBinary => b.name)).Nodup :=
  ⟨binary_collision_check_behaviour.1 fetchD extractB true 0 [pkgB] .ignore stAB
      (.binaryCollision "b" "x" "a")
      { db := stAB.db, binDir := stAB.binDir, dbWrites := 0, prompted := false,
        downloads := 1 } (by rfl) rfl,
   binary_collision_check_behaviour.2.1 stAB.db.installed [] [epB]
      ⟨epB, by simp, { name := "x", content := "c" }, by simp [epB], manifestA,
        by rfl, by simp [manifestA, epB, manifestB]⟩,
   binary_collision_check_behaviour.2.2 stD.db.installed [epD]
      [{ name := "x", content := "c1" }] (by rfl)⟩

/-! ## Claim C3: no two installed packages share a binary filename -/

theorem foldl_insertA_lookup {α : Type} {L : List (String × α)} {b : String} {v : α}
    (hall : ∀ kv ∈ L, kv.1 = b → kv.2 = v) :
    ∀ acc : List (String × α), ((b, v) ∈ L ∨ lookupA acc b = some v) →
      lookupA (L.foldl (fun m kv => insertA m kv.1 kv.2) acc) b = some v := by
  induction L with
  | nil =>
    intro acc h
    rcases h with h | h
    · simp at h
    · simpa using h
  | cons kv L ih =>
    intro acc h
    rw [List.foldl_cons]
    by_cases hk : kv.1 = b
    · have hv : kv.2 = v := hall kv (List.mem_cons_self _ _) hk
      refine ih (fun kv2 hkv2 => hall kv2 (List.mem_cons_of_mem _ hkv2)) _ (Or.inr ?_)
      rw [hk, hv]
      exact lookupA_insertA_self acc b v
    · rcases h with h | h
      · rcases List.mem_cons.mp h with h1 | h1
        · exact absurd (congrArg Prod.fst h1).symm hk
        · exact ih (fun kv2 hkv2 => hall kv2 (List.mem_cons_of_mem _ hkv2)) _ (Or.inl h1)
      · refine ih (fun kv2 hkv2 => hall kv2 (List.mem_cons_of_mem _ hkv2)) _ (Or.inr ?_)
        rw [lookupA_insertA_ne acc kv.2 hk]
        exact h

/-- With disjoint binaries across records, every pair the seed fold inserts
for a given filename carries the manifest of the single owning record. -/
theorem seedBins_pairs_const {installed : List (String × InstalledPackage)}
    (hd : DisjointBins installed) :
    ∀ e ∈ installed, ∀ b ∈ e.2.binaries,
      ∀ kv ∈ installed.flatMap
        (fun p => p.2.binaries.map (fun bn => (bn, p.2.manifest))),
        kv.1 = b → kv.2 = e.2.manifest := by
  induction installed with
  | nil => intro e he; simp at he
  | cons hd0 tl ih =>
    intro e he b hb kv hkv hkb
    have hpair := List.pairwise_cons.mp hd
    obtain ⟨e', he', hkv2⟩ := List.mem_flatMap.mp hkv
    obtain ⟨bn, hbn, hbe⟩ := List.mem_map.mp hkv2
    have hbnb : bn = b := by rw [← hkb, ← hbe]
    rcases List.mem_cons.mp he with he1 | he1 <;>
      rcases List.mem_cons.mp he' with he2 | he2
    · rw [← hbe, he1, he2]
    · exfalso
      have hb0 : b ∈ hd0.2.binaries := by rw [← he1]; exact hb
      rw [hbnb] at hbn
      exact hpair.1 e' he2 b hb0 hbn
    · exfalso
      rw [hbnb, he2] at hbn
      exact hpair.1 e he1 b hbn hb
    · exact ih hpair.2 e he1 b hb kv
        (List.mem_flatMap.mpr ⟨e', he2, hkv2⟩) hkb

/-- Under the database invariants, looking a recorded binary filename up in
the seeded collision map yields the manifest of its owning record. -/
theorem seedBins_lookup {installed : List (String × InstalledPackage)}
    (hd : DisjointBins installed) :
    ∀ e ∈ installed, ∀ b ∈ e.2.binaries,
      lookupA (seedBins installed) b = some e.2.manifest := by
  intro e he b hb
  unfold seedBins
  refine foldl_insertA_lookup (seedBins_pairs_const hd e he b hb) [] (Or.inl ?_)
  exact List.mem_flatMap.mpr ⟨e, he, List.mem_map.mpr ⟨b, hb, rfl⟩⟩

/-- `insertA` preserves pairwise value relations, provided the inserted
value relates (both ways) to every binding under a different key. -/
theorem insertA_pairwise {α : Type} (R : α → α → Prop)
    {l : List (String × α)} {k : String} {v : α}
    (hnd : (keysA l).Nodup) (hp : l.Pairwise (fun a b => R a.2 b.2))
    (hv : ∀ e ∈ l, e.1 ≠ k → R v e.2 ∧ R e.2 v) :
    (insertA l k v).Pairwise (fun a b => R a.2 b.2) := by
  induction l with
  | nil => simp [insertA]
  | cons hd0 tl ih =>
    have hpc := List.pairwise_cons.mp hp
    have hndc := by
      rw [keysA, List.map_cons, List.nodup_cons] at hnd
      exact hnd
    unfold insertA
    by_cases hk : hd0.1 = k
    · simp only [hk, if_true]
      refine List.pairwise_cons.mpr ⟨?_, hpc.2⟩
      intro e he
      have hek : e.1 ≠ k := by
        intro hco
        refine hndc.1 ?_
        rw [hk, ← hco]
        exact List.mem_map.mpr ⟨e, he, rfl⟩
      exact (hv e (List.mem_cons_of_mem _ he) hek).1
    · simp only [hk, if_false]
      refine List.pairwise_cons.mpr ⟨?_, ?_⟩
      · intro e he
        rcases mem_insertA he with he1 | he1
        · exact hpc.1 e he1
        · rw [he1]
          exact (hv hd0 (List.mem_cons_self _ _) hk).2
      · exact ih hndc.2 hpc.2
          (fun e he hek => hv e (List.mem_cons_of_mem _ he) hek)

/-- The database commit of `install_pkgs` preserves the shared-binary
invariants, given what a successful collision check guarantees. -/
theorem commitInstalled_disjoint (now : Nat) :
    ∀ (eps : List ExtractedPackage) (ins : List (String × InstalledPackage)),
    KeyedByName ins → (keysA ins).Nodup → DisjointBins ins →
    (∀ ep ∈ eps, ∀ e ∈ ins, ep.manifest.name ≠ e.1 →
      ∀ x ∈ binNames ep, x ∉ e.2.binaries) →
    eps.Pairwise (fun a b => a.manifest.name = b.manifest.name ∨
      ∀ x ∈ binNames a, x ∉ binNames b) →
    DisjointBins (commitInstalled now eps ins) := by
  intro eps
  induction eps with
  | nil =>
    intro ins _ _ hd _ _
    exact hd
  | cons ep0 rest ih =>
    intro ins hkey hnd hd hsep hpw
    have hpwc := List.pairwise_cons.mp hpw
    unfold commitInstalled
    rw [List.foldl_cons]
    show DisjointBins (commitInstalled now rest _)
    set rec0 : InstalledPackage :=
      { manifest := ep0.manifest, repo_name := ep0.repo_name, version := ep0.version,
        at_ := now, binaries := ep0.extracted.binaries.map (fun b => b.name),
        installed_as_dep := ((lookupA ins ep0.manifest.name).map
          (fun i => i.installed_as_dep)).getD ep0.is_dep } with hrec0
    have hrecbins : rec0.binaries = binNames ep0 := rfl
    refine ih (insertA ins ep0.manifest.name rec0) ?_ ?_ ?_ ?_ hpwc.2
    · intro e he
      rcases mem_insertA he with he1 | he1
      · exact hkey e he1
      · rw [he1]
    · exact nodup_keysA_insertA hnd
    · show DisjointBins (insertA ins ep0.manifest.name rec0)
      unfold DisjointBins at hd ⊢
      refine insertA_pairwise
        (fun a b : InstalledPackage => ∀ x ∈ a.binaries, x ∉ b.binaries) hnd hd ?_
      intro e he hek
      have h1 : ∀ x ∈ rec0.binaries, x ∉ e.2.binaries := by
        rw [hrecbins]
        exact hsep ep0 (List.mem_cons_self _ _) e he (fun hco => hek hco.symm)
      refine ⟨h1, ?_⟩
      intro x hx hx2
      exact h1 x hx2 hx
    · intro ep hep e he hne
      rcases mem_insertA he with he1 | he1
      · exact hsep ep (List.mem_cons_of_mem _ hep) e he1 hne
      · have hne0 : ep.manifest.name ≠ ep0.manifest.name := by
          intro hco
          refine hne ?_
          rw [he1, hco]
        rcases hpwc.1 ep hep with hcase | hcase
        · exact absurd hcase.symm hne0
        · intro x hx hx2
          rw [he1] at hx2
          rw [hrecbins] at hx2
          exact hcase x hx2 hx

/-- `removeInstalledLoop` only removes entries. -/
theorem removeInstalledLoop_sublist :
    ∀ (names : List String) (ins ins' : List (String × InstalledPackage)),
    removeInstalledLoop ins names = some ins' → ins'.Sublist ins := by
  intro names
  induction names with
  | nil =>
    intro ins ins' h
    unfold removeInstalledLoop at h
    simp at h
    rw [← h]
  | cons n rest ih =>
    intro ins ins' h
    unfold removeInstalledLoop at h
    cases hl : lookupA ins n with
    | none => rw [hl] at h; simp at h
    | some i =>
      rw [hl] at h
      simp only at h
      exact (ih (eraseA ins n) ins' h).trans (eraseA_sublist ins n)

/-- **C3.**  After every successful install/update (`install_pkgs`, any
policy) and after every successful uninstall, no two distinct installed
records share a binary filename, provided the database satisfied its
invariants beforehand (records keyed by manifest name, unique keys,
disjoint binaries). -/
theorem no_shared_binary_filenames :
    (∀ fetchO extractO ca now pkgs handling st st',
      KeyedByName st.db.installed → (keysA st.db.installed).Nodup →
      DisjointBins st.db.installed →
      installPkgs fetchO extractO ca now pkgs handling st = .ok st' →
      DisjointBins st'.db.installed) ∧
    (∀ ca names depsFlag st st',
      DisjointBins st.db.installed →
      uninstallCmd ca names depsFlag st = .ok st' →
      DisjointBins st'.db.installed) := by
  constructor
  · intro fetchO extractO ca now pkgs handling st st' hkey hnd hd h
    unfold installPkgs at h
    simp only at h
    split at h
    · exact absurd h (by simp)
    · split at h
      · simp only [Except.ok.injEq] at h
        rw [← h]
        exact hd
      · split at h
        · exact absurd h (by simp)
        · split at h
          · exact absurd h (by simp)
          · rename_i extracted hde
            split at h
            · exact absurd h (by simp)
            · rename_i flattened hc
              simp only [Except.ok.injEq] at h
              rw [← h]
              show DisjointBins (commitInstalled now extracted st.db.installed)
              refine commitInstalled_disjoint now extracted st.db.installed
                hkey hnd hd ?_ (collisionCheck_ok_pairwise hc)
              intro ep hep e he hne x hx hx2
              obtain ⟨b, hb, hbn⟩ := List.mem_map.mp hx
              have hseed : lookupA (seedBins st.db.installed) b.name =
                  some e.2.manifest := by
                rw [hbn]
                exact seedBins_lookup hd e he x hx2
              have hown := collisionCheck_ok_owner hc ep hep b hb e.2.manifest hseed
              exact hne (hown.symm.trans (hkey e he))
  · intro ca names depsFlag st st' hd h
    unfold uninstallCmd at h
    simp only at h
    split at h
    · exact absurd h (by simp)
    · split at h
      · exact absurd h (by simp)
      · split at h
        · exact absurd h (by simp)
        · split at h
          · simp only [Except.ok.injEq] at h
            rw [← h]
            exact hd
          · split at h
            · exact absurd h (by simp)
            · split at h
              · exact absurd h (by simp)
              · split at h
                · exact absurd h (by simp)
                · rename_i ins2 hrem
                  simp only [Except.ok.injEq] at h
                  rw [← h]
                  show DisjointBins ins2
                  unfold DisjointBins at hd ⊢
                  exact List.Pairwise.sublist
                    (removeInstalledLoop_sublist _ _ _ hrem) hd

/-! Fixture for the C3 witness: a successful single-binary uninstall. -/

def manifestS : PackageManifest :=
  { name := "s", source := .direct { urls := [], hardcoded_version := "1" },
    depends_on := [] }

def repoS : Repository :=
  { name := "rs", description := "", packages := [("s", manifestS)] }

def installedS : InstalledPackage :=
  { manifest := manifestS, repo_name := "rs", version := "1", at_ := 0,
    binaries := ["y"], installed_as_dep := false }

def stS : St :=
  { db := { repositories := [("rs", { content := repoS })],
            installed := [("s", installedS)] },
    binDir := [("y", { content := "c", mode := 0o755 })],
    dbWrites := 0, prompted := false, downloads := 0 }

/-- The state after installing `pkgD` into `stD`. -/
def stDAfter : St :=
  { db := { repositories := [("rd", { content := repoD })],
            installed := [("d",
              { manifest := manifestD, repo_name := "rd", version := "v",
                at_ := 0, binaries := ["x", "x"],
                installed_as_dep := false })] },
    binDir := [("x", { content := "c1", mode := 0o755 })],
    dbWrites := 1, prompted := false, downloads := 1 }

/-- The state after uninstalling `"s"` from `stS`. -/
def stSAfter : St :=
  { db := { repositories := [("rs", { content := repoS })], installed := [] },
    binDir := [], dbWrites := 1, prompted := true, downloads := 0 }

/-- Witness for C3: the invariant holds after a concrete successful install
and after a concrete successful uninstall. -/
theorem no_shared_binary_filenames_witness :
    DisjointBins stDAfter.db.installed ∧ DisjointBins stSAfter.db.installed :=
  ⟨no_shared_binary_filenames.1 fetchD extractD true 0 [pkgD] .ignore stD stDAfter
      (fun e he => absurd he (by simp [stD]))
      (by simp [stD, keysA])
      (by simp [stD, DisjointBins])
      (by rfl),
   no_shared_binary_filenames.2 true ["s"] false stS stSAfter
      (by simp [stS, DisjointBins])
      (by rfl)⟩

/-! ## Claim C1 (code bug): updates never replace the on-disk binary -/

/-- The pre-update state: `"u"` is installed at version `"v1"` and its
binary file in the binary directory holds the old build (`"OLD"`). -/
def stC1 : St :=
  { db := { repositories := [("r", { content := repoU })],
            installed := [("u", installedU)] },
    binDir := [("u", { content := "OLD", mode := 0o755 })],
    dbWrites := 0, prompted := false, downloads := 0 }

/-- The fetch finds a newer release `"v2"`. -/
def fetchC1 : FetchOracle :=
  fun _ => some { url := "u2", headers := [], version := "v2", typ := .binary "u" }

/-- The download/extraction stages the new build (`"NEW"`). -/
def extractC1 : ExtractOracle :=
  fun _ _ => some { binaries := [{ name := "u", content := "NEW" }] }

/-- **C1 (divergence).**  Updating `"u"` from `"v1"` to `"v2"` succeeds, the
database records version `"v2"` — but the binary directory still holds the
OLD build: the collision loop (installer.rs lines 133-157) pushes a binary
into the copy list only when its name is absent from the map seeded from
the database, so a binary already owned by the same package (always the
case for updates and reinstalls) is silently skipped and never copied. -/
theorem update_leaves_stale_binary :
    installPkgs fetchC1 extractC1 true 7 [pkgU] .update stC1 =
      .ok { db := { repositories := [("r", { content := repoU })],
                    installed := [("u",
                      { manifest := manifestU, repo_name := "r", version := "v2",
                        at_ := 7, binaries := ["u"],
                        installed_as_dep := false })] },
            binDir := [("u", { content := "OLD", mode := 0o755 })],
            dbWrites := 1, prompted := false, downloads := 1 } := by rfl

/-! ## Claim C8 (code bug): uninstalling a two-binary package panics -/

def manifestT : PackageManifest :=
  { name := "t", source := .direct { urls := [], hardcoded_version := "1" },
    depends_on := [] }

def repoT : Repository :=
  { name := "rt", description := "", packages := [("t", manifestT)] }

def installedT : InstalledPackage :=
  { manifest := manifestT, repo_name := "rt", version := "1", at_ := 0,
    binaries := ["x", "y"], installed_as_dep := false }

def stT : St :=
  { db := { repositories := [("rt", { content := repoT })],
            installed := [("t", installedT)] },
    binDir := [("x", { content := "cx", mode := 0o755 }),
               ("y", { content := "cy", mode := 0o755 })],
    dbWrites := 0, prompted := false, downloads := 0 }

/-- **C8 (divergence).**  A confirmed uninstall of the single package `"t"`
with two recorded binaries, both present on disk, deletes both files and
then aborts with a failed assertion before the database is ever written:
the removal-name list is derived from the per-binary path list (main.rs
lines 243-246), so `"t"` appears once per binary and the second
`db.installed.remove` hits `assert!(… .is_some())`.  The database still
records the package whose files are gone, and no commit happened. -/
theorem uninstall_two_binaries_panics :
    uninstallCmd true ["t"] false stT =
      .error (.assertFailed,
        { db := stT.db, binDir := [], dbWrites := 0, prompted := true,
          downloads := 0 }) := by rfl

/-! ## Resolver lemmas (claims C6 / C7) -/

theorem lookupA_none_of_not_mem_keys {α : Type} {l : List (String × α)} {k : String}
    (h : k ∉ keysA l) : lookupA l k = none := by
  cases hl : lookupA l k with
  | none => rfl
  | some v => exact absurd (mem_keysA_of_lookupA hl) h

/-- What a successful `enqueueDeps` produces: the queue extended by one
dependency entry per dependency name, in order; each pushed entry is marked
`is_dep`, carries the parent repository, and holds the manifest that
repository maps the dependency name to. -/
theorem enqueueDeps_ok_spec {pkgs0 : List ResolvedPkg} {repo : Repository}
    {pn : String} :
    ∀ {deps : List String} {queue q' : List ResolvedPkg},
    enqueueDeps pkgs0 repo pn queue deps = .ok q' →
    (∃ suffix, q' = queue ++ suffix ∧ ∀ x ∈ suffix, x.is_dep = true ∧
      x.repository = repo ∧
      ∃ d ∈ deps, lookupA repo.packages d = some x.manifest) ∧
    (∀ d ∈ deps, ∃ m, lookupA repo.packages d = some m ∧
      ({ manifest := m, repository := repo, is_dep := true } : ResolvedPkg) ∈ q') := by
  intro deps
  induction deps with
  | nil =>
    intro queue q' h
    unfold enqueueDeps at h
    simp only [Except.ok.injEq] at h
    subst h
    exact ⟨⟨[], by simp⟩, by simp⟩
  | cons d rest ih =>
    intro queue q' h
    unfold enqueueDeps at h
    split at h
    · exact absurd h (by simp)
    · cases hl : lookupA repo.packages d with
      | none => rw [hl] at h; exact absurd h (by simp)
      | some m =>
        rw [hl] at h
        simp only at h
        obtain ⟨⟨suffix, hsfx, hsfxall⟩, hcov⟩ := ih h
        constructor
        · refine ⟨{ manifest := m, repository := repo, is_dep := true } :: suffix,
            ?_, ?_⟩
          · rw [hsfx]
            simp
          · intro x hx
            rcases List.mem_cons.mp hx with hx1 | hx1
            · subst hx1
              exact ⟨rfl, rfl, d, List.mem_cons_self _ _, hl⟩
            · obtain ⟨h1, h2, d2, hd2, h3⟩ := hsfxall x hx1
              exact ⟨h1, h2, d2, List.mem_cons_of_mem _ hd2, h3⟩
        · intro d2 hd2
          rcases List.mem_cons.mp hd2 with hd3 | hd3
          · subst hd3
            refine ⟨m, hl, ?_⟩
            rw [hsfx]
            exact List.mem_append_left _ (List.mem_append_right _
              (List.mem_singleton.mpr rfl))
          · obtain ⟨m2, hm2, hmem⟩ := hcov d2 hd3
            exact ⟨m2, hm2, hmem⟩

/-- Invariant of the queue loop of `resolve_pkgs_with_deps`, for the
requested-name/`is_dep` bookkeeping: the queue keeps all non-dependency
items (whose names are requested) in front of dependency items, the handled
map is keyed by manifest name with unique keys, a handled entry is a
non-dependency exactly when its name was requested, and every requested
name is either handled already or still queued as a non-dependency item. -/
structure ResolveInv (R : List String) (queue : List ResolvedPkg)
    (handled : List (String × ResolvedPkg)) : Prop where
  qsplit : ∃ a b, queue = a ++ b ∧ (∀ x ∈ a, x.is_dep = false) ∧
    (∀ x ∈ b, x.is_dep = true)
  falseReq : ∀ x ∈ queue, x.is_dep = false → x.manifest.name ∈ R
  hkey : ∀ e ∈ handled, e.2.manifest.name = e.1
  depIff : ∀ e ∈ handled, (e.2.is_dep = false ↔ e.1 ∈ R)
  hnodup : (keysA handled).Nodup
  covered : ∀ r ∈ R, (lookupA handled r).isSome ∨
    ∃ x ∈ queue, x.is_dep = false ∧ x.manifest.name = r

theorem resolveStep_inv {pkgs0 : List ResolvedPkg} {R : List String} :
    ∀ (fuel : Nat) (queue : List ResolvedPkg)
      (handled : List (String × ResolvedPkg)) (out : List (String × ResolvedPkg)),
    resolveStep pkgs0 fuel queue handled = .ok out →
    ResolveInv R queue handled →
    (∀ e ∈ out, e.2.manifest.name = e.1) ∧
    (∀ e ∈ out, (e.2.is_dep = false ↔ e.1 ∈ R)) ∧
    (keysA out).Nodup ∧
    (∀ r ∈ R, (lookupA out r).isSome) := by
  intro fuel
  induction fuel with
  | zero =>
    intro queue handled out h
    unfold resolveStep at h
    exact absurd h (by simp)
  | succ fuel ih =>
    intro queue handled out h hinv
    cases queue with
    | nil =>
      unfold resolveStep at h
      simp only [Except.ok.injEq] at h
      subst h
      refine ⟨hinv.hkey, hinv.depIff, hinv.hnodup, ?_⟩
      intro r hr
      rcases hinv.covered r hr with hc | ⟨x, hx, _⟩
      · exact hc
      · simp at hx
    | cons resolved rest =>
      unfold resolveStep at h
      cases hl : lookupA handled resolved.manifest.name with
      | some prev =>
        rw [hl] at h
        simp only at h
        split at h
        · exact absurd h (by simp)
        · refine ih rest handled out h ?_
          obtain ⟨a, b, hab, ha, hb⟩ := hinv.qsplit
          refine ⟨?_, ?_, hinv.hkey, hinv.depIff, hinv.hnodup, ?_⟩
          · cases a with
            | nil =>
              simp at hab
              refine ⟨[], b.tail, ?_, by simp, ?_⟩
              · rw [← hab]
                simp
              · intro x hx
                exact hb x (List.mem_of_mem_tail hx)
            | cons a0 a' =>
              rw [List.cons_append] at hab
              injection hab with h1 h2
              exact ⟨a', b, h2, fun x hx => ha x (List.mem_cons_of_mem _ hx), hb⟩
          · intro x hx hfalse
            exact hinv.falseReq x (List.mem_cons_of_mem _ hx) hfalse
          · intro r hr
            rcases hinv.covered r hr with hc | ⟨x, hx, hxf, hxn⟩
            · exact Or.inl hc
            · rcases List.mem_cons.mp hx with hx1 | hx1
              · refine Or.inl ?_
                rw [← hxn, hx1, hl]
                rfl
              · exact Or.inr ⟨x, hx1, hxf, hxn⟩
      | none =>
        rw [hl] at h
        simp only at h
        cases he : enqueueDeps pkgs0 resolved.repository resolved.manifest.name rest
            resolved.manifest.depends_on with
        | error e => rw [he] at h; exact absurd h (by simp)
        | ok queue2 =>
          rw [he] at h
          simp only at h
          obtain ⟨⟨suffix, hsfx, hsfxall⟩, -⟩ := enqueueDeps_ok_spec he
          obtain ⟨a, b, hab, ha, hb⟩ := hinv.qsplit
          have hnotin : resolved.manifest.name ∉ keysA handled := by
            intro hmem
            rcases List.mem_map.mp hmem with ⟨e2, he2, hk2⟩
            have hmem2 : (resolved.manifest.name, e2.2) ∈ handled := by
              rw [← hk2]
              exact he2
            have := lookupA_isSome_of_mem hmem2
            rw [hl] at this
            simp at this
          have hdepcase : resolved.is_dep = false ∨
              (resolved.is_dep = true ∧ resolved.manifest.name ∉ R) := by
            cases hdep : resolved.is_dep with
            | false => exact Or.inl rfl
            | true =>
              refine Or.inr ⟨rfl, ?_⟩
              intro hr
              rcases hinv.covered _ hr with hc | ⟨x, hx, hxf, hxn⟩
              · rw [hl] at hc; simp at hc
              · cases a with
                | nil =>
                  simp at hab
                  rw [hab] at hx
                  rw [hb x hx] at hxf
                  simp at hxf
                | cons a0 a' =>
                  rw [List.cons_append] at hab
                  injection hab with h1 h2
                  rcases List.mem_cons.mp hx with hx1 | hx1
                  · rw [hx1] at hxf
                    rw [hdep] at hxf
                    simp at hxf
                  · have hfa : a0.is_dep = false := ha a0 (List.mem_cons_self _ _)
                    rw [← h1] at hfa
                    rw [hdep] at hfa
                    simp at hfa
          refine ih queue2 (handled ++ [(resolved.manifest.name, resolved)]) out h ?_
          refine ⟨?_, ?_, ?_, ?_, ?_, ?_⟩
          · cases a with
            | nil =>
              simp at hab
              refine ⟨[], b.tail ++ suffix, ?_, by simp, ?_⟩
              · rw [hsfx, ← hab]
                simp
              · intro x hx
                rcases List.mem_append.mp hx with hx1 | hx1
                · exact hb x (List.mem_of_mem_tail hx1)
                · exact (hsfxall x hx1).1
            | cons a0 a' =>
              rw [List.cons_append] at hab
              injection hab with h1 h2
              refine ⟨a', b ++ suffix, ?_, fun x hx => ha x (List.mem_cons_of_mem _ hx), ?_⟩
              · rw [hsfx, h2]
                simp
              · intro x hx
                rcases List.mem_append.mp hx with hx1 | hx1
                · exact hb x hx1
                · exact (hsfxall x hx1).1
          · intro x hx hfalse
            rw [hsfx] at hx
            rcases List.mem_append.mp hx with hx1 | hx1
            · exact hinv.falseReq x (List.mem_cons_of_mem _ hx1) hfalse
            · rw [(hsfxall x hx1).1] at hfalse
              simp at hfalse
          · intro e hee
            rcases List.mem_append.mp hee with he1 | he1
            · exact hinv.hkey e he1
            · rw [List.mem_singleton] at he1
              rw [he1]
          · intro e hee
            rcases List.mem_append.mp hee with he1 | he1
            · exact hinv.depIff e he1
            · rw [List.mem_singleton] at he1
              rw [he1]
              rcases hdepcase with hd1 | ⟨hd1, hd2⟩
              · simp only [hd1]
                constructor
                · intro _
                  exact hinv.falseReq resolved (List.mem_cons_self _ _) hd1
                · intro _
                  trivial
              · simp only [hd1]
                constructor
                · intro hco
                  exact absurd hco (by simp)
                · intro hr
                  exact absurd hr hd2
          · show (keysA (handled ++ [(resolved.manifest.name, resolved)])).Nodup
            simp only [keysA, List.map_append]
            rw [List.nodup_append]
            refine ⟨hinv.hnodup, by simp, ?_⟩
            intro x hx hy
            simp only [List.map_cons, List.map_nil, List.mem_singleton] at hy
            rw [hy] at hx
            exact hnotin hx
          · intro r hr
            rcases hinv.covered r hr with hc | ⟨x, hx, hxf, hxn⟩
            · refine Or.inl ?_
              cases hlr : lookupA handled r with
              | none => rw [hlr] at hc; simp at hc
              | some v =>
                rw [lookupA_append_left hlr]
                rfl
            · rcases List.mem_cons.mp hx with hx1 | hx1
              · refine Or.inl ?_
                rw [← hxn, hx1]
                rw [lookupA_append_right hl]
                unfold lookupA
                simp
              · refine Or.inr ⟨x, ?_, hxf, hxn⟩
                rw [hsfx]
                exact List.mem_append_left _ hx1

/-- **C6.**  For every request list of non-dependency resolved packages,
a successful dependency resolution returns a set in which each package name
appears exactly once, a package is marked `is_dep = false` exactly when its
name was explicitly requested (so every package reached only as a
transitive dependency has `is_dep = true`), and every requested name is in
the result. -/
theorem resolver_dedup_and_dep_marking (pkgs out : List ResolvedPkg)
    (hreq : ∀ p ∈ pkgs, p.is_dep = false)
    (h : resolvePkgsWithDeps pkgs = .ok out) :
    (out.map (fun e => e.manifest.name)).Nodup ∧
    (∀ e ∈ out, (e.is_dep = false ↔
      e.manifest.name ∈ pkgs.map (fun p => p.manifest.name))) ∧
    (∀ p ∈ pkgs, p.manifest.name ∈ out.map (fun e => e.manifest.name)) := by
  unfold resolvePkgsWithDeps at h
  cases hr : resolveStep pkgs (resolveFuelBound pkgs) pkgs [] with
  | error e => rw [hr] at h; exact absurd h (by simp [Except.map])
  | ok hd =>
    rw [hr] at h
    simp only [Except.map, Except.ok.injEq] at h
    obtain ⟨hk, hiff, hnd, hcov⟩ :=
      resolveStep_inv (R := pkgs.map fun p => p.manifest.name)
        (resolveFuelBound pkgs) pkgs [] hd hr
        ⟨⟨pkgs, [], by simp, hreq, by simp⟩,
         fun x hx _ => List.mem_map.mpr ⟨x, hx, rfl⟩,
         by simp,
         by simp,
         by simp [keysA],
         fun r hr0 => by
          obtain ⟨p, hp, hpn⟩ := List.mem_map.mp hr0
          exact Or.inr ⟨p, hp, hreq p hp, hpn⟩⟩
    have hmapeq : out.map (fun e => e.manifest.name) = keysA hd := by
      rw [← h, List.map_map]
      exact List.map_congr_left hk
    refine ⟨?_, ?_, ?_⟩
    · rw [hmapeq]
      exact hnd
    · intro e he
      rw [← h] at he
      obtain ⟨en, hen, heq⟩ := List.mem_map.mp he
      have h1 := hiff en hen
      rw [← heq, hk en hen]
      exact h1
    · intro p hp
      have hr2 := hcov p.manifest.name (List.mem_map.mpr ⟨p, hp, rfl⟩)
      cases hlv : lookupA hd p.manifest.name with
      | none => rw [hlv] at hr2; simp at hr2
      | some v =>
        rw [hmapeq]
        exact mem_keysA_of_lookupA hlv

/-! Fixture for C6: the dependency chain `A → B → C`. -/

def srcX : DownloadSource := .direct { urls := [], hardcoded_version := "1" }

def mA3 : PackageManifest := { name := "A", source := srcX, depends_on := ["B"] }

def mB3 : PackageManifest := { name := "B", source := srcX, depends_on := ["C"] }

def mC3 : PackageManifest := { name := "C", source := srcX, depends_on := [] }

def repo3 : Repository :=
  { name := "R3", description := "",
    packages := [("A", mA3), ("B", mB3), ("C", mC3)] }

def pkgA3 : ResolvedPkg := { manifest := mA3, repository := repo3, is_dep := false }

/-- The resolution of `A` over `repo3`, in handled order. -/
def out3 : List ResolvedPkg :=
  [{ manifest := mA3, repository := repo3, is_dep := false },
   { manifest := mB3, repository := repo3, is_dep := true },
   { manifest := mC3, repository := repo3, is_dep := true }]

/-- Witness for C6, on the spec's boundary scenario: requesting `A` over
`A → B → C` yields exactly `{A, B, C}` with `is_dep(A) = false` and
`is_dep(B) = is_dep(C) = true`. -/
theorem resolver_dedup_and_dep_marking_witness :
    (out3.map (fun e => e.manifest.name)).Nodup ∧
    (∀ e ∈ out3, (e.is_dep = false ↔
      e.manifest.name ∈ [pkgA3].map (fun p => p.manifest.name))) ∧
    (∀ p ∈ [pkgA3], p.manifest.name ∈ out3.map (fun e => e.manifest.name)) :=
  resolver_dedup_and_dep_marking [pkgA3] out3
    (by intro p hp
        rw [List.mem_singleton] at hp
        subst hp
        rfl)
    (by rfl)

/-! ## Claim C7: idempotence of resolution -/

/-- Repository invariant 1 of the spec: packages are keyed by their name. -/
def RepoWF (repo : Repository) : Prop := ∀ e ∈ repo.packages, e.2.name = e.1

/-- A resolved entry is well-formed w.r.t. a repository set: its repository
belongs to the set and registers its manifest under its name. -/
def EntryWF (RS : List Repository) (x : ResolvedPkg) : Prop :=
  x.repository ∈ RS ∧ lookupA x.repository.packages x.manifest.name = some x.manifest

/-- Invariant of the queue loop for entry well-formedness and dependency
closure. -/
structure ClosureInv (RS : List Repository) (queue : List ResolvedPkg)
    (handled : List (String × ResolvedPkg)) : Prop where
  hq : ∀ x ∈ queue, EntryWF RS x
  hh : ∀ e ∈ handled, EntryWF RS e.2
  hkey : ∀ e ∈ handled, e.2.manifest.name = e.1
  hdeps : ∀ e ∈ handled, ∀ d ∈ e.2.manifest.depends_on,
    ((lookupA handled d).isSome ∨ ∃ x ∈ queue, x.manifest.name = d) ∧
    (lookupA e.2.repository.packages d).isSome

theorem resolveStep_closure {pkgs0 : List ResolvedPkg} {RS : List Repository}
    (hRS : ∀ r ∈ RS, RepoWF r) :
    ∀ (fuel : Nat) (queue : List ResolvedPkg)
      (handled out : List (String × ResolvedPkg)),
    resolveStep pkgs0 fuel queue handled = .ok out →
    ClosureInv RS queue handled →
    (∀ e ∈ out, EntryWF RS e.2) ∧ (∀ e ∈ out, e.2.manifest.name = e.1) ∧
    (∀ e ∈ out, ∀ d ∈ e.2.manifest.depends_on,
      (lookupA out d).isSome ∧ (lookupA e.2.repository.packages d).isSome) := by
  intro fuel
  induction fuel with
  | zero =>
    intro queue handled out h
    unfold resolveStep at h
    exact absurd h (by simp)
  | succ fuel ih =>
    intro queue handled out h hinv
    cases queue with
    | nil =>
      unfold resolveStep at h
      simp only [Except.ok.injEq] at h
      subst h
      refine ⟨hinv.hh, hinv.hkey, ?_⟩
      intro e he d hd
      obtain ⟨hd1, hd2⟩ := hinv.hdeps e he d hd
      refine ⟨?_, hd2⟩
      rcases hd1 with hd1 | ⟨x, hx, _⟩
      · exact hd1
      · simp at hx
    | cons resolved rest =>
      unfold resolveStep at h
      cases hl : lookupA handled resolved.manifest.name with
      | some prev =>
        rw [hl] at h
        simp only at h
        split at h
        · exact absurd h (by simp)
        · refine ih rest handled out h ?_
          refine ⟨fun x hx => hinv.hq x (List.mem_cons_of_mem _ hx),
            hinv.hh, hinv.hkey, ?_⟩
          intro e he d hd
          obtain ⟨hd1, hd2⟩ := hinv.hdeps e he d hd
          refine ⟨?_, hd2⟩
          rcases hd1 with hd1 | ⟨x, hx, hxn⟩
          · exact Or.inl hd1
          · rcases List.mem_cons.mp hx with hx1 | hx1
            · refine Or.inl ?_
              rw [← hxn, hx1, hl]
              rfl
            · exact Or.inr ⟨x, hx1, hxn⟩
      | none =>
        rw [hl] at h
        simp only at h
        cases he : enqueueDeps pkgs0 resolved.repository resolved.manifest.name rest
            resolved.manifest.depends_on with
        | error e => rw [he] at h; exact absurd h (by simp)
        | ok queue2 =>
          rw [he] at h
          simp only at h
          obtain ⟨⟨suffix, hsfx, hsfxall⟩, hcover⟩ := enqueueDeps_ok_spec he
          have hheadwf := hinv.hq resolved (List.mem_cons_self _ _)
          have hrepowf : RepoWF resolved.repository := hRS _ hheadwf.1
          refine ih queue2 (handled ++ [(resolved.manifest.name, resolved)]) out h ?_
          refine ⟨?_, ?_, ?_, ?_⟩
          · intro x hx
            rw [hsfx] at hx
            rcases List.mem_append.mp hx with hx1 | hx1
            · exact hinv.hq x (List.mem_cons_of_mem _ hx1)
            · obtain ⟨-, hrepo, d, -, hdl⟩ := hsfxall x hx1
              have hname : x.manifest.name = d :=
                hrepowf _ (lookupA_mem hdl)
              refine ⟨by rw [hrepo]; exact hheadwf.1, ?_⟩
              rw [hrepo, hname]
              exact hdl
          · intro e hee
            rcases List.mem_append.mp hee with he1 | he1
            · exact hinv.hh e he1
            · rw [List.mem_singleton] at he1
              rw [he1]
              exact hheadwf
          · intro e hee
            rcases List.mem_append.mp hee with he1 | he1
            · exact hinv.hkey e he1
            · rw [List.mem_singleton] at he1
              rw [he1]
          · intro e hee d hd
            rcases List.mem_append.mp hee with he1 | he1
            · obtain ⟨hd1, hd2⟩ := hinv.hdeps e he1 d hd
              refine ⟨?_, hd2⟩
              rcases hd1 with hd1 | ⟨x, hx, hxn⟩
              · refine Or.inl ?_
                cases hlr : lookupA handled d with
                | none => rw [hlr] at hd1; simp at hd1
                | some v =>
                  rw [lookupA_append_left hlr]
                  rfl
              · rcases List.mem_cons.mp hx with hx1 | hx1
                · refine Or.inl ?_
                  rw [← hxn, hx1]
                  rw [lookupA_append_right hl]
                  unfold lookupA
                  simp
                · refine Or.inr ⟨x, ?_, hxn⟩
                  rw [hsfx]
                  exact List.mem_append_left _ hx1
            · rw [List.mem_singleton] at he1
              subst he1
              simp only at hd ⊢
              obtain ⟨m, hm, hmem⟩ := hcover d hd
              have hname : m.name = d := hrepowf _ (lookupA_mem hm)
              refine ⟨Or.inr ⟨_, hmem, hname⟩, ?_⟩
              rw [hm]
              rfl

/-- What a successful by-name resolution guarantees: the result is marked
non-dependency, comes from a registered repository that contains the name,
and is the unique such choice across all registered repositories. -/
theorem resolvePkgByName_ok {n : String} {repos : List (String × Repository)}
    {e : ResolvedPkg} (h : resolvePkgByName n repos = .ok e) :
    e.is_dep = false ∧
    (∃ p ∈ repos, p.2 = e.repository) ∧
    lookupA e.repository.packages n = some e.manifest ∧
    (∀ p ∈ repos, ∀ m, lookupA p.2.packages n = some m →
      m = e.manifest ∧ p.2 = e.repository) := by
  unfold resolvePkgByName at h
  cases hc : repos.filterMap
      (fun p => (lookupA p.2.packages n).map (fun pkg => (pkg, p.2))) with
  | nil => rw [hc] at h; exact absurd h (by simp)
  | cons c cs =>
    cases cs with
    | cons c2 cs2 => rw [hc] at h; exact absurd h (by simp)
    | nil =>
      obtain ⟨cm, cr⟩ := c
      rw [hc] at h
      simp only [Except.ok.injEq] at h
      have hcmem : (cm, cr) ∈ repos.filterMap
          (fun p => (lookupA p.2.packages n).map (fun pkg => (pkg, p.2))) := by
        rw [hc]
        exact List.mem_singleton.mpr rfl
      obtain ⟨p, hp, hpv⟩ := List.mem_filterMap.mp hcmem
      have hpl : lookupA p.2.packages n = some cm ∧ p.2 = cr := by
        cases hpp : lookupA p.2.packages n with
        | none => rw [hpp] at hpv; simp at hpv
        | some m0 =>
          rw [hpp] at hpv
          have h3 : (some (m0, p.2) : Option (PackageManifest × Repository)) =
              some (cm, cr) := hpv
          injection h3 with h4
          injection h4 with h5 h6
          exact ⟨by rw [h5], h6⟩
      refine ⟨by rw [← h], ⟨p, hp, by rw [← h]; exact hpl.2⟩, ?_, ?_⟩
      · rw [← h]
        show lookupA cr.packages n = some cm
        rw [← hpl.2]
        exact hpl.1
      · intro p2 hp2 m hm
        have hm2 : (m, p2.2) ∈ repos.filterMap
            (fun p => (lookupA p.2.packages n).map (fun pkg => (pkg, p.2))) :=
          List.mem_filterMap.mpr ⟨p2, hp2, by rw [hm]; rfl⟩
        rw [hc, List.mem_singleton, Prod.mk.injEq] at hm2
        rw [← h]
        exact hm2

theorem mapME_ok_forall_ex {α β : Type} {f : α → Except Err β} :
    ∀ {l : List α} {out : List β}, mapME f l = .ok out →
    ∀ a ∈ l, ∃ b, f a = .ok b := by
  intro l
  induction l with
  | nil => intro out _ a ha; simp at ha
  | cons a0 rest ih =>
    intro out h a ha
    unfold mapME at h
    cases hf : f a0 with
    | error e => rw [hf] at h; simp at h
    | ok b0 =>
      rw [hf] at h
      simp only at h
      cases hrest : mapME f rest with
      | error e => rw [hrest] at h; simp at h
      | ok bs =>
        rcases List.mem_cons.mp ha with ha1 | ha1
        · exact ⟨b0, ha1 ▸ hf⟩
        · exact ih hrest a ha1

theorem mapME_ok_map_of_pointwise {α β γ : Type} {f : β → Except Err γ}
    {nm : α → β} {g : α → γ} :
    ∀ {l : List α} {out : List γ}, mapME f (l.map nm) = .ok out →
    (∀ a ∈ l, f (nm a) = .ok (g a)) → out = l.map g := by
  intro l
  induction l with
  | nil =>
    intro out h _
    unfold mapME at h
    simp only [List.map_nil] at h ⊢
    simp at h
    rw [← h]
  | cons a0 rest ih =>
    intro out h hpt
    rw [List.map_cons] at h
    unfold mapME at h
    rw [hpt a0 (List.mem_cons_self _ _)] at h
    simp only at h
    cases hrest : mapME f (rest.map nm) with
    | error e => rw [hrest] at h; simp at h
    | ok bs =>
      rw [hrest] at h
      simp only [Except.ok.injEq] at h
      rw [← h, List.map_cons,
        ih hrest (fun a ha => hpt a (List.mem_cons_of_mem _ ha))]

theorem lookupA_pairs_isSome {l : List ResolvedPkg} {n : String}
    (h : ∃ y ∈ l, y.manifest.name = n) :
    (lookupA (l.map (fun x => (x.manifest.name, x))) n).isSome := by
  obtain ⟨y, hy, hyn⟩ := h
  exact lookupA_isSome_of_mem (v := y)
    (List.mem_map.mpr ⟨y, hy, by rw [hyn]⟩)

/-- The second resolution run, on a de-duplicated, dependency-closed,
non-dependency start set, handles exactly the start set in order: every
start item is inserted and every pushed dependency entry is already
handled when popped. -/
theorem resolveStep_run2 {S2 : List ResolvedPkg}
    (hnames : (S2.map (fun x => x.manifest.name)).Nodup)
    (hwf : ∀ x ∈ S2, RepoWF x.repository)
    (hclosure : ∀ x ∈ S2, ∀ d ∈ x.manifest.depends_on,
      ∃ y ∈ S2, y.manifest.name = d) :
    ∀ (fuel : Nat) (done todo extra : List ResolvedPkg)
      (out : List (String × ResolvedPkg)),
    S2 = done ++ todo →
    (∀ x ∈ extra, ∃ y ∈ S2, x.manifest.name = y.manifest.name) →
    resolveStep S2 fuel (todo ++ extra)
      (done.map (fun x => (x.manifest.name, x))) = .ok out →
    out = S2.map (fun x => (x.manifest.name, x)) := by
  intro fuel
  induction fuel with
  | zero =>
    intro done todo extra out _ _ h
    unfold resolveStep at h
    exact absurd h (by simp)
  | succ fuel ih =>
    intro done todo extra out hS2 hextra h
    cases todo with
    | nil =>
      cases extra with
      | nil =>
        simp only [List.nil_append] at h
        unfold resolveStep at h
        simp only [Except.ok.injEq] at h
        rw [← h, hS2]
        simp
      | cons x0 extra2 =>
        simp only [List.nil_append] at h
        unfold resolveStep at h
        have hdone : done = S2 := by rw [hS2]; simp
        cases hl : lookupA (done.map (fun x => (x.manifest.name, x)))
            x0.manifest.name with
        | none =>
          exfalso
          have := lookupA_pairs_isSome (l := done) (n := x0.manifest.name) ?_
          · rw [hl] at this; simp at this
          · obtain ⟨y, hy, hyn⟩ := hextra x0 (List.mem_cons_self _ _)
            exact ⟨y, by rw [hdone]; exact hy, hyn.symm⟩
        | some prev =>
          rw [hl] at h
          simp only at h
          split at h
          · exact absurd h (by simp)
          · refine ih done [] extra2 out (by rw [hS2]) ?_ ?_
            · intro x hx
              exact hextra x (List.mem_cons_of_mem _ hx)
            · simp only [List.nil_append]
              exact h
    | cons x0 todo2 =>
      have hx0 : x0 ∈ S2 := by rw [hS2]; simp
      rw [List.cons_append] at h
      unfold resolveStep at h
      have hnotin : x0.manifest.name ∉ keysA (done.map (fun x => (x.manifest.name, x))) := by
        intro hmem
        have hkeys : keysA (done.map (fun x => (x.manifest.name, x))) =
            done.map (fun x => x.manifest.name) := by
          simp [keysA]
        rw [hkeys] at hmem
        rw [hS2, List.map_append] at hnames
        rw [List.nodup_append] at hnames
        exact hnames.2.2 hmem (by simp)
      rw [lookupA_none_of_not_mem_keys hnotin] at h
      simp only at h
      cases he : enqueueDeps S2 x0.repository x0.manifest.name (todo2 ++ extra)
          x0.manifest.depends_on with
      | error e => rw [he] at h; exact absurd h (by simp)
      | ok queue2 =>
        rw [he] at h
        simp only at h
        obtain ⟨⟨suffix, hsfx, hsfxall⟩, -⟩ := enqueueDeps_ok_spec he
        have hrepowf : RepoWF x0.repository := hwf x0 hx0
        refine ih (done ++ [x0]) todo2 (extra ++ suffix) out ?_ ?_ ?_
        · rw [hS2]
          simp
        · intro x hx
          rcases List.mem_append.mp hx with hx1 | hx1
          · exact hextra x hx1
          · obtain ⟨-, -, d, hd, hdl⟩ := hsfxall x hx1
            have hname : x.manifest.name = d := hrepowf _ (lookupA_mem hdl)
            obtain ⟨y, hy, hyn⟩ := hclosure x0 hx0 d hd
            exact ⟨y, hy, by rw [hname, hyn]⟩
        · rw [List.map_append, List.map_singleton]
          rw [hsfx] at h
          have harr : todo2 ++ extra ++ suffix = todo2 ++ (extra ++ suffix) := by
            simp
          rw [harr] at h
          exact h

theorem mapME_ok_mem {α β : Type} {f : α → Except Err β} :
    ∀ {l : List α} {out : List β}, mapME f l = .ok out →
    ∀ b ∈ out, ∃ a ∈ l, f a = .ok b := by
  intro l
  induction l with
  | nil =>
    intro out h b hb
    unfold mapME at h
    simp at h
    rw [h] at hb
    simp at hb
  | cons a0 rest ih =>
    intro out h b hb
    unfold mapME at h
    cases hf : f a0 with
    | error e => rw [hf] at h; simp at h
    | ok b0 =>
      rw [hf] at h
      simp only at h
      cases hrest : mapME f rest with
      | error e => rw [hrest] at h; simp at h
      | ok bs =>
        rw [hrest] at h
        simp only [Except.ok.injEq] at h
        rw [← h] at hb
        rcases List.mem_cons.mp hb with hb1 | hb1
        · exact ⟨a0, List.mem_cons_self _ _, by rw [hf, hb1]⟩
        · obtain ⟨a, ha, hfa⟩ := ih hrest b hb1
          exact ⟨a, List.mem_cons_of_mem _ ha, hfa⟩

/-- **C7 (amended).**  Resolution is idempotent whenever the second
resolution succeeds: if resolving `names` (with transitive dependencies)
over well-formed repositories yields `out`, and resolving the names of
`out` succeeds as well, the second run yields exactly the packages of `out`
paired with the same repositories — every entry now marked as explicitly
requested (`is_dep = false`).  (The second run can fail, e.g. with
`AmbiguousPackage`, when a dependency's name also exists in another
repository; see the counterexample.) -/
theorem resolve_idempotent_on_success (repos : List (String × Repository))
    (names : List String) (out out2 : List ResolvedPkg)
    (hwf : ∀ p ∈ repos, RepoWF p.2)
    (h1 : resolvePkgsByNameWithDeps names repos = .ok out)
    (h2 : resolvePkgsByNameWithDeps (out.map (fun e => e.manifest.name)) repos
      = .ok out2) :
    out2 = out.map (fun e => { e with is_dep := false }) := by
  unfold resolvePkgsByNameWithDeps at h1
  cases hn1 : resolvePkgsByName names repos with
  | error e => rw [hn1] at h1; exact absurd h1 (by simp)
  | ok pkgs1 =>
  rw [hn1] at h1
  simp only at h1
  unfold resolvePkgsWithDeps at h1
  cases hr1 : resolveStep pkgs1 (resolveFuelBound pkgs1) pkgs1 [] with
  | error e => rw [hr1] at h1; exact absurd h1 (by simp [Except.map])
  | ok hd1 =>
  rw [hr1] at h1
  simp only [Except.map, Except.ok.injEq] at h1
  have hRS : ∀ r ∈ repos.map Prod.snd, RepoWF r := by
    intro r hr
    obtain ⟨p, hp, hpv⟩ := List.mem_map.mp hr
    rw [← hpv]
    exact hwf p hp
  have hpkgs1 : ∀ x ∈ pkgs1, EntryWF (repos.map Prod.snd) x ∧ x.is_dep = false := by
    intro x hx
    obtain ⟨nm, hnm, hres⟩ := mapME_ok_mem hn1 x hx
    obtain ⟨hdep, ⟨p, hp, hpv⟩, hlook, -⟩ := resolvePkgByName_ok hres
    have hxwf : RepoWF x.repository := by
      have h0 : RepoWF p.2 := hwf p hp
      rw [hpv] at h0
      exact h0
    have hname : x.manifest.name = nm := hxwf _ (lookupA_mem hlook)
    refine ⟨⟨List.mem_map.mpr ⟨p, hp, hpv⟩, ?_⟩, hdep⟩
    rw [hname]
    exact hlook
  obtain ⟨hF1, hFkey, hF3⟩ := resolveStep_closure hRS _ pkgs1 [] hd1 hr1
    ⟨fun x hx => (hpkgs1 x hx).1, by simp, by simp, by simp⟩
  obtain ⟨-, -, hnd, -⟩ :=
    resolveStep_inv (R := pkgs1.map fun p => p.manifest.name)
      (resolveFuelBound pkgs1) pkgs1 [] hd1 hr1
      ⟨⟨pkgs1, [], by simp, fun p hp => (hpkgs1 p hp).2, by simp⟩,
       fun x hx _ => List.mem_map.mpr ⟨x, hx, rfl⟩,
       by simp, by simp, by simp [keysA],
       fun r hr0 => by
        obtain ⟨p, hp, hpn⟩ := List.mem_map.mp hr0
        exact Or.inr ⟨p, hp, (hpkgs1 p hp).2, hpn⟩⟩
  have houtwf : ∀ e ∈ out, EntryWF (repos.map Prod.snd) e := by
    intro e he
    rw [← h1] at he
    obtain ⟨en, hen, heq⟩ := List.mem_map.mp he
    rw [← heq]
    exact hF1 en hen
  have houtnodup : (out.map (fun e => e.manifest.name)).Nodup := by
    rw [← h1, List.map_map]
    have heq : hd1.map (fun en => en.2.manifest.name) = keysA hd1 :=
      List.map_congr_left hFkey
    exact heq ▸ hnd
  have houtclosure : ∀ e ∈ out, ∀ d ∈ e.manifest.depends_on,
      ∃ y ∈ out, y.manifest.name = d := by
    intro e he d hd
    rw [← h1] at he
    obtain ⟨en, hen, heq⟩ := List.mem_map.mp he
    have hlv := (hF3 en hen d (by rw [heq]; exact hd)).1
    cases hv : lookupA hd1 d with
    | none => rw [hv] at hlv; simp at hlv
    | some v =>
      refine ⟨v, ?_, hFkey (d, v) (lookupA_mem hv)⟩
      rw [← h1]
      exact List.mem_map.mpr ⟨(d, v), lookupA_mem hv, rfl⟩
  unfold resolvePkgsByNameWithDeps at h2
  cases hn2 : resolvePkgsByName (out.map fun e => e.manifest.name) repos with
  | error e => rw [hn2] at h2; exact absurd h2 (by simp)
  | ok S2 =>
  rw [hn2] at h2
  simp only at h2
  have hpt : ∀ e ∈ out, resolvePkgByName e.manifest.name repos =
      .ok { manifest := e.manifest, repository := e.repository, is_dep := false } := by
    intro e he
    obtain ⟨b, hb⟩ := mapME_ok_forall_ex hn2 e.manifest.name
      (List.mem_map.mpr ⟨e, he, rfl⟩)
    obtain ⟨hbdep, -, -, huniq⟩ := resolvePkgByName_ok hb
    obtain ⟨hewf1, hewf2⟩ := houtwf e he
    obtain ⟨p, hp, hpv⟩ := List.mem_map.mp hewf1
    obtain ⟨hm, hrepo⟩ := huniq p hp e.manifest (by rw [hpv]; exact hewf2)
    rw [hb]
    obtain ⟨bm, br, bd⟩ := b
    simp only at hbdep hm hrepo
    rw [hm, ← hpv, hrepo, hbdep]
  have hS2 : S2 = out.map (fun e =>
      ({ manifest := e.manifest, repository := e.repository,
         is_dep := false } : ResolvedPkg)) :=
    mapME_ok_map_of_pointwise hn2 hpt
  unfold resolvePkgsWithDeps at h2
  cases hr2 : resolveStep S2 (resolveFuelBound S2) S2 [] with
  | error e => rw [hr2] at h2; exact absurd h2 (by simp [Except.map])
  | ok hd2 =>
  rw [hr2] at h2
  simp only [Except.map, Except.ok.injEq] at h2
  have hnames2 : (S2.map (fun x => x.manifest.name)).Nodup := by
    rw [hS2, List.map_map]
    exact houtnodup
  have hwf2 : ∀ x ∈ S2, RepoWF x.repository := by
    intro x hx
    rw [hS2] at hx
    obtain ⟨e, he, heq⟩ := List.mem_map.mp hx
    rw [← heq]
    exact hRS _ (houtwf e he).1
  have hclos2 : ∀ x ∈ S2, ∀ d ∈ x.manifest.depends_on,
      ∃ y ∈ S2, y.manifest.name = d := by
    intro x hx d hd
    rw [hS2] at hx
    obtain ⟨e, he, heq⟩ := List.mem_map.mp hx
    have hd2 : d ∈ e.manifest.depends_on := by rw [← heq] at hd; exact hd
    obtain ⟨y, hy, hyn⟩ := houtclosure e he d hd2
    refine ⟨{ manifest := y.manifest, repository := y.repository,
              is_dep := false }, ?_, hyn⟩
    rw [hS2]
    exact List.mem_map.mpr ⟨y, hy, rfl⟩
  have hrun2 := resolveStep_run2 hnames2 hwf2 hclos2 (resolveFuelBound S2)
    [] S2 [] hd2 (by simp) (by simp) (by simpa using hr2)
  rw [← h2, hrun2, List.map_map]
  have hid : S2.map ((fun e : String × ResolvedPkg => e.2) ∘
      (fun x : ResolvedPkg => (x.manifest.name, x))) = S2 :=
    List.map_id' S2
  rw [hid, hS2]

/-! Fixture for the C7 counterexample: the dependency `B` of `A` lives in
repository `R1`, but a package of the same name also exists in `R2`. -/

def mAc : PackageManifest := { name := "A", source := srcX, depends_on := ["B"] }

def mBc : PackageManifest := { name := "B", source := srcX, depends_on := [] }

def repoR1 : Repository :=
  { name := "R1", description := "", packages := [("A", mAc), ("B", mBc)] }

def repoR2 : Repository :=
  { name := "R2", description := "", packages := [("B", mBc)] }

def reposC7 : List (String × Repository) := [("R1", repoR1), ("R2", repoR2)]

/-- **C7 counterexample.**  Resolution is not idempotent in general: over
`reposC7`, resolving `["A"]` succeeds and yields the packages `A` and `B`
(the dependency `B` is resolved inside its parent's repository `R1`), but
re-resolving the names of that output, `["A", "B"]`, goes through the
global by-name lookup and fails with `AmbiguousPackage` because `B` exists
in both `R1` and `R2`. -/
theorem resolve_not_idempotent_counterexample :
    (resolvePkgsByNameWithDeps ["A"] reposC7).map
      (fun l => l.map (fun e => e.manifest.name)) = .ok ["A", "B"] ∧
    (resolvePkgsByNameWithDeps ["A", "B"] reposC7).isOk = false :=
  ⟨rfl, rfl⟩

/-! Fixture for the C7 witness: a single repository, so re-resolution
succeeds. -/

def repos3 : List (String × Repository) := [("R3", repo3)]

/-- The second resolution of the `A → B → C` chain: same packages and
repositories, all marked as explicitly requested. -/
def out3r : List ResolvedPkg :=
  [{ manifest := mA3, repository := repo3, is_dep := false },
   { manifest := mB3, repository := repo3, is_dep := false },
   { manifest := mC3, repository := repo3, is_dep := false }]

/-- Witness for C7: over the single repository `repos3`, resolving `["A"]`
yields `out3`; re-resolving its names `["A", "B", "C"]` succeeds and yields
the same packages with `is_dep` reset to `false`. -/
theorem resolve_idempotent_on_success_witness :
    (∀ p ∈ repos3, RepoWF p.2) ∧
    resolvePkgsByNameWithDeps ["A"] repos3 = .ok out3 ∧
    resolvePkgsByNameWithDeps (out3.map (fun e => e.manifest.name)) repos3
      = .ok out3r ∧
    out3r = out3.map (fun e => { e with is_dep := false }) := by
  have hwf : ∀ p ∈ repos3, RepoWF p.2 := by
    show ∀ p ∈ repos3, ∀ e ∈ p.2.packages, e.2.name = e.1
    decide
  exact ⟨hwf, rfl, rfl,
    resolve_idempotent_on_success repos3 ["A"] out3 out3r hwf rfl rfl⟩

end Fetchy
